import Mathlib

set_option linter.unusedVariables false

/-!
Verification of the geometric clipmap terrain mesh generator
(`src/geoclipmap.rs`, `src/types.rs` of `fast_terrain`).

The shallow embedding below mirrors the source code:
* `f32` scalars are modelled by exact rationals (every arithmetic operation the
  generator performs is exact on the values in scope);
* `i32` values are modelled by `Int` (no value in scope approaches the i32 range);
* Godot packed arrays are modelled by lists; a positional write `buf[n] = v`
  panics in the source when `n` is out of bounds, which is modelled by `Option`;
* `HashMap<Vector3Hash, i32>` is modelled by an association list with distinct
  keys (`List.lookup` for `get`, cons for `insert`).
-/

namespace FastTerrain

/-- Godot `Vector3` (source components are `f32`, modelled exactly). -/
structure Vec3 where
  x : ℚ
  y : ℚ
  z : ℚ
deriving DecidableEq, Repr

instance : Inhabited Vec3 := ⟨⟨0, 0, 0⟩⟩

def Vec3.add (a b : Vec3) : Vec3 := ⟨a.x + b.x, a.y + b.y, a.z + b.z⟩

def Vec3.sub (a b : Vec3) : Vec3 := ⟨a.x - b.x, a.y - b.y, a.z - b.z⟩

/-- Godot `Vector3::length_squared`. -/
def Vec3.length_squared (v : Vec3) : ℚ := v.x * v.x + v.y * v.y + v.z * v.z

/-- The `midpoint` closure of `subdivide_half`: `(p1 + p2) / 2.0`. -/
def midpoint (p1 p2 : Vec3) : Vec3 :=
  ⟨(p1.x + p2.x) / 2, (p1.y + p2.y) / 2, (p1.z + p2.z) / 2⟩

/-- Rust float-to-int cast `as i32`: truncation toward zero, saturating at the
    i32 bounds. -/
def f32_as_i32 (q : ℚ) : Int :=
  max (-2147483648) (min 2147483647 (if q < 0 then Int.ceil q else Int.floor q))

/-- Model of `types.rs`: quantized position key, `(v.x * 100000.0) as i32` per coordinate. -/
structure Vector3Hash where
  x : Int
  y : Int
  z : Int
deriving DecidableEq, Repr

def Vector3Hash.from_vector3 (v : Vec3) : Vector3Hash :=
  ⟨f32_as_i32 (v.x * 100000), f32_as_i32 (v.y * 100000), f32_as_i32 (v.z * 100000)⟩

/-- The weld table `HashMap<Vector3Hash, i32>` as an association list. -/
abbrev VertexMap := List (Vector3Hash × Int)

/-- The `find_or_add_vertex` closure of `subdivide_half`: look the quantized key
    up; on a hit return the stored index (table and buffer unchanged), otherwise
    append the vertex, record the key and return the fresh index. -/
def find_or_add_vertex (vertex_map : VertexMap) (new_vertices : List Vec3)
    (vertex : Vec3) : Int × VertexMap × List Vec3 :=
  let key := Vector3Hash.from_vector3 vertex
  match List.lookup key vertex_map with
  | some index => (index, vertex_map, new_vertices)
  | none =>
      let index : Int := new_vertices.length
      (index, (key, index) :: vertex_map, new_vertices ++ [vertex])

/-- Model of `vertices.get(id as usize).unwrap()`: fails (panic) when the index is
    negative or out of range. -/
def getVertex (vertices : List Vec3) (i : Int) : Option Vec3 :=
  if 0 ≤ i then vertices[i.toNat]? else none

/-- Model of `indices_vec.chunks(3)`: the loop body reads `chunk[0]`, `chunk[1]` and
    `chunk[2]`, which panics on a trailing chunk of size 1 or 2 (`none`). -/
def chunks3 : List Int → Option (List (Int × Int × Int))
  | [] => some []
  | i0 :: i1 :: i2 :: rest => (chunks3 rest).map fun cs => (i0, i1, i2) :: cs
  | _ => none

/-- The mutable locals of `subdivide_half`. -/
structure SubState where
  vertex_map : VertexMap
  new_vertices : List Vec3
  new_indices : List Int
deriving Repr

/-- One iteration of the `for chunk in indices_vec.chunks(3)` loop of
    `subdivide_half`: pick the first of AB, BC, CA whose squared length is `>=`
    both others (in the source's branch order), weld the three corners and the
    midpoint of the chosen edge, and emit the two replacement triangles. -/
def subdivideChunk (vertices : List Vec3) (st : SubState) :
    Int × Int × Int → Option SubState :=
  fun (id_0, id_1, id_2) => do
    let a ← getVertex vertices id_0
    let b ← getVertex vertices id_1
    let c ← getVertex vertices id_2
    let length_ab := (b.sub a).length_squared
    let length_bc := (c.sub b).length_squared
    let length_ca := (a.sub c).length_squared
    if length_ab ≥ length_bc ∧ length_ab ≥ length_ca then
      let (a_id, m1, v1) := find_or_add_vertex st.vertex_map st.new_vertices a
      let (b_id, m2, v2) := find_or_add_vertex m1 v1 b
      let (c_id, m3, v3) := find_or_add_vertex m2 v2 c
      let (mid_id, m4, v4) := find_or_add_vertex m3 v3 (midpoint a b)
      some ⟨m4, v4, st.new_indices ++ [a_id, mid_id, c_id, mid_id, b_id, c_id]⟩
    else if length_bc ≥ length_ab ∧ length_bc ≥ length_ca then
      let (a_id, m1, v1) := find_or_add_vertex st.vertex_map st.new_vertices a
      let (b_id, m2, v2) := find_or_add_vertex m1 v1 b
      let (c_id, m3, v3) := find_or_add_vertex m2 v2 c
      let (mid_id, m4, v4) := find_or_add_vertex m3 v3 (midpoint b c)
      some ⟨m4, v4, st.new_indices ++ [b_id, mid_id, a_id, mid_id, c_id, a_id]⟩
    else
      let (a_id, m1, v1) := find_or_add_vertex st.vertex_map st.new_vertices a
      let (b_id, m2, v2) := find_or_add_vertex m1 v1 b
      let (c_id, m3, v3) := find_or_add_vertex m2 v2 c
      let (mid_id, m4, v4) := find_or_add_vertex m3 v3 (midpoint c a)
      some ⟨m4, v4, st.new_indices ++ [c_id, mid_id, b_id, mid_id, a_id, b_id]⟩

/-- Model of `GeoClipMap::subdivide_half`: one longest-edge bisection pass. The source
    rebuilds the two buffers in place; the model returns the new buffers. -/
def subdivide_half (vertices : List Vec3) (indices : List Int) :
    Option (List Vec3 × List Int) := do
  let cs ← chunks3 indices
  let st ← cs.foldlM (subdivideChunk vertices) ⟨[], [], []⟩
  return (st.new_vertices, st.new_indices)

/-- Godot `Aabb` (position corner and size). -/
structure Aabb where
  position : Vec3
  size : Vec3
deriving DecidableEq, Repr

/-- Godot `Aabb::expand`: returns a copy of the box enlarged to contain the
    point.  The source calls this and discards the returned value. -/
def Aabb.expand (b : Aabb) (p : Vec3) : Aabb :=
  let beginX := min b.position.x p.x
  let beginY := min b.position.y p.y
  let beginZ := min b.position.z p.z
  let endX := max (b.position.x + b.size.x) p.x
  let endY := max (b.position.y + b.size.y) p.y
  let endZ := max (b.position.z + b.size.z) p.z
  ⟨⟨beginX, beginY, beginZ⟩, ⟨endX - beginX, endY - beginY, endZ - beginZ⟩⟩

/-- A point lies inside an axis-aligned box (boundary included). -/
def Aabb.containsPoint (b : Aabb) (p : Vec3) : Prop :=
  b.position.x ≤ p.x ∧ p.x ≤ b.position.x + b.size.x ∧
  b.position.y ≤ p.y ∧ p.y ≤ b.position.y + b.size.y ∧
  b.position.z ≤ p.z ∧ p.z ≤ b.position.z + b.size.z

instance (b : Aabb) (p : Vec3) : Decidable (b.containsPoint p) := by
  unfold Aabb.containsPoint; infer_instance

/-- The data `GeoClipMap::create_mesh` registers with the rendering server:
    vertex and index buffers, constant `+Y` normals, zeroed tangents (4 floats
    per vertex) and the custom bounding box.  The returned `Rid` is an opaque
    handle for exactly this payload, so the model returns the payload. -/
structure Mesh where
  vertices : List Vec3
  indices : List Int
  normals : List Vec3
  tangents : List ℚ
  aabb : Aabb
deriving Repr

def create_mesh (vertices : List Vec3) (indices : List Int) (aabb : Aabb) : Mesh :=
  { vertices := vertices
    indices := indices
    normals := List.replicate vertices.length ⟨0, 1, 0⟩
    tangents := List.replicate (vertices.length * 4) 0
    aabb := aabb }

/-- Model of `GeoClipMap::patch_2d`. -/
def patch_2d (x y resolution : Int) : Int := y * resolution + x

/-- Rust `for i in 0..n` over `i32`: iterates `0, 1, …, n-1` (empty for `n ≤ 0`). -/
def rangeI (n : Int) : List Int := (List.range n.toNat).map fun k => ((k : Nat) : Int)

/-- Model of `buf.resize(len)` (default-filled) followed by the sequence of positional
    writes `buf[n] = item` for consecutive `n` starting at 0, as the fill loops
    of the source perform: panics (`none`) as soon as a write is out of bounds,
    leaves trailing default entries when fewer writes than slots occur. -/
def fillChecked {α : Type} (d : α) (len : Nat) (items : List α) : Option (List α) :=
  if items.length ≤ len then some (items ++ List.replicate (len - items.length) d)
  else none

/-- A single positional write `buf[n] = v`, panicking (`none`) out of bounds. -/
def writeChecked {α : Type} (l : List α) (n : Nat) (v : α) : Option (List α) :=
  if n < l.length then some (l.set n v) else none

/-- A sequence of positional writes at explicitly computed offsets. -/
def writesChecked {α : Type} (l : List α) : List (Nat × α) → Option (List α)
  | [] => some l
  | (n, v) :: rest => do
      let l' ← writeChecked l n v
      writesChecked l' rest

/-- Vertex write sequence shared by the Tile and the Filler blocks (their fill
    loops are identical): the row-major `(size+1) × (size+1)` lattice in the XZ
    plane, `vertices[n] = Vector3::new(x as f32, 0.0, y as f32)`. -/
def latticeVertexStream (size : Int) : List Vec3 :=
  (rangeI (size + 1)).flatMap fun y =>
    (rangeI (size + 1)).map fun x => ⟨((x : Int) : ℚ), 0, ((y : Int) : ℚ)⟩

/-- Index write sequence shared by the Tile and the Filler blocks: two triangles
    per unit cell through `patch_2d`. -/
def latticeIndexStream (size : Int) : List Int :=
  (rangeI size).flatMap fun y =>
    (rangeI size).flatMap fun x =>
      [patch_2d x y (size + 1), patch_2d (x + 1) (y + 1) (size + 1),
       patch_2d x (y + 1) (size + 1), patch_2d x y (size + 1),
       patch_2d (x + 1) y (size + 1), patch_2d (x + 1) (y + 1) (size + 1)]

/-- The analytic bounding box built in the Tile and Filler blocks:
    position `ZERO`, size `(patch_vert_resolution, 0.1, patch_vert_resolution)`.
    (The `f32` literal `0.1` is written `1/10`; no claim depends on its value.) -/
def tileAabb (size : Int) : Aabb :=
  ⟨⟨0, 0, 0⟩, ⟨((size + 1 : Int) : ℚ), 1 / 10, ((size + 1 : Int) : ℚ)⟩⟩

/-- The Tile block of `GeoClipMap::generate` (returns `(outer, inner)`). -/
def tileBlock (size : Int) : Option (Mesh × Mesh) := do
  let vertices ← fillChecked default ((size + 1) * (size + 1)).toNat
      (latticeVertexStream size)
  let indices ← fillChecked 0 (size * size * 6).toNat (latticeIndexStream size)
  let aabb := tileAabb size
  let inner_mesh := create_mesh vertices indices aabb
  let p ← subdivide_half vertices indices
  let outer_mesh := create_mesh p.1 p.2 aabb
  return (outer_mesh, inner_mesh)

/-- The Filler block of `GeoClipMap::generate` (returns
    `(outer, inner, aabb)`).  Note the source resizes the vertex buffer to
    `patch_vert_resolution` slots (not squared) and then runs the same
    `patch_vert_resolution²`-write fill loop as the Tile block. -/
def fillerBlock (size : Int) : Option (Mesh × Mesh × Aabb) := do
  let vertices ← fillChecked default (size + 1).toNat (latticeVertexStream size)
  let indices ← fillChecked 0 (size * size * 6).toNat (latticeIndexStream size)
  let aabb := tileAabb size
  let inner_mesh := create_mesh vertices indices aabb
  let p ← subdivide_half vertices indices
  let outer_mesh := create_mesh p.1 p.2 aabb
  return (outer_mesh, inner_mesh, aabb)

/-- Vertex write sequence of the Trim block: four arms of `size+1` vertex
    pairs each, written consecutively. -/
def trimVertexStream (size : Int) : List Vec3 :=
  let offset := size
  ((rangeI (size + 1)).flatMap fun i =>
    [⟨((offset + i + 1 : Int) : ℚ), 0, 0⟩, ⟨((offset + i + 1 : Int) : ℚ), 0, 1⟩]) ++
  ((rangeI (size + 1)).flatMap fun i =>
    [⟨1, 0, ((offset + i + 1 : Int) : ℚ)⟩, ⟨0, 0, ((offset + i + 1 : Int) : ℚ)⟩]) ++
  ((rangeI (size + 1)).flatMap fun i =>
    [⟨((-offset + i : Int) : ℚ), 0, 1⟩, ⟨((-offset + i : Int) : ℚ), 0, 0⟩]) ++
  ((rangeI (size + 1)).flatMap fun i =>
    [⟨0, 0, ((-offset + i : Int) : ℚ)⟩, ⟨1, 0, ((-offset + i : Int) : ℚ)⟩])

/-- Index write sequence of the Trim block: `tile_resolution * 4` cells, with
    the even/odd-arm branch on the triangle pattern. -/
def trimIndexStream (size : Int) : List Int :=
  (rangeI (size * 4)).flatMap fun i =>
    let arm := i / size
    let bl := (arm + i) * 2 + 0
    let br := (arm + i) * 2 + 1
    let tl := (arm + i) * 2 + 2
    let tr := (arm + i) * 2 + 3
    if arm % 2 = 0 then [br, bl, tr, bl, tl, tr] else [br, bl, tl, br, tl, tr]

/-- The Trim block of `GeoClipMap::generate` (returns `(outer, inner)`): the
    `aabb.expand(...)` calls of the source return enlarged copies that are
    discarded, so the box received from the Filler block is registered as is. -/
def trimBlock (size : Int) (aabb : Aabb) : Option (Mesh × Mesh) := do
  let vertices ← fillChecked default ((size + 1) * 8).toNat (trimVertexStream size)
  let indices ← fillChecked 0 (size * 24).toNat (trimIndexStream size)
  let inner_mesh := create_mesh vertices indices aabb
  let p ← subdivide_half vertices indices
  let outer_mesh := create_mesh p.1 p.2 aabb
  return (outer_mesh, inner_mesh)

/-- Vertex write sequence of the Cross block: a horizontal then a vertical arm,
    each `2 * patch_vert_resolution` vertex pairs. -/
def crossVertexStream (size : Int) : List Vec3 :=
  ((rangeI ((size + 1) * 2)).flatMap fun i =>
    [⟨((i - size : Int) : ℚ), 0, 0⟩, ⟨((i - size : Int) : ℚ), 0, 1⟩]) ++
  ((rangeI ((size + 1) * 2)).flatMap fun i =>
    [⟨0, 0, ((i - size : Int) : ℚ)⟩, ⟨1, 0, ((i - size : Int) : ℚ)⟩])

/-- Value of `start_of_vertical`: write count after the horizontal vertex loop. -/
def start_of_vertical (size : Int) : Int := (size + 1) * 4

/-- Index write sequence of the Cross block: both arms triangulated per cell,
    the vertical arm skipping cell `i == tile_resolution` (the shared center). -/
def crossIndexStream (size : Int) : List Int :=
  ((rangeI (size * 2 + 1)).flatMap fun i =>
    [i * 2 + 1, i * 2 + 0, i * 2 + 3, i * 2 + 0, i * 2 + 2, i * 2 + 3]) ++
  ((rangeI (size * 2 + 1)).flatMap fun i =>
    if i = size then []
    else
      let sov := start_of_vertical size
      [sov + (i * 2 + 1), sov + (i * 2 + 3), sov + (i * 2 + 0),
       sov + (i * 2 + 0), sov + (i * 2 + 3), sov + (i * 2 + 2)])

/-- The Cross block of `GeoClipMap::generate` (expand results again discarded). -/
def crossBlock (size : Int) (aabb : Aabb) : Option Mesh := do
  let vertices ← fillChecked default ((size + 1) * 8).toNat (crossVertexStream size)
  let indices ← fillChecked 0 (size * 24 + 6).toNat (crossIndexStream size)
  return create_mesh vertices indices aabb

/-- Scattered vertex writes of the Seam block: for each `i < cvr` one write per
    side at offsets `cvr*0+i`, `cvr*1+i`, `cvr*2+i`, `cvr*3+i`. -/
def seamWrites (size : Int) : List (Nat × Vec3) :=
  let cvr := size * 4 + 1 + 1
  let c := cvr.toNat
  (List.range c).flatMap fun i =>
    [(c * 0 + i, ⟨((i : Nat) : ℚ), 0, 0⟩),
     (c * 1 + i, ⟨(cvr : ℚ), 0, ((i : Nat) : ℚ)⟩),
     (c * 2 + i, ⟨((cvr - i : Int) : ℚ), 0, (cvr : ℚ)⟩),
     (c * 3 + i, ⟨0, 0, ((cvr - i : Int) : ℚ)⟩)]

/-- Index write sequence of the Seam block before the final wrap-around write:
    the loop `for i in (0..cvr*4).step_by(2)` emits `[i+1, i, i+2]`. -/
def seamIndexStreamRaw (size : Int) : List Int :=
  let cvr := size * 4 + 2
  (List.range (cvr * 2).toNat).flatMap fun k =>
    [((2 * k + 1 : Nat) : Int), ((2 * k : Nat) : Int), ((2 * k + 2 : Nat) : Int)]

/-- The Seam block of `GeoClipMap::generate`: scattered vertex writes, fan
    indices, then the wrap write `indicies[len - 1] = 0` (a panic when the
    buffer is empty). -/
def seamBlock (size : Int) (aabb : Aabb) : Option Mesh := do
  let cvr := size * 4 + 2
  let vertices ← writesChecked (List.replicate (cvr * 4).toNat default)
      (seamWrites size)
  let indicies ← fillChecked 0 (cvr * 6).toNat (seamIndexStreamRaw size)
  if indicies.length = 0 then none
  else return create_mesh vertices (indicies.set (indicies.length - 1) 0) aabb

/-- Model of `GeoClipMap::generate`: the five blocks in source order; `levels` is only
    printed by the source and not consumed.  Returns the handle list
    `[tile, filler, trim, cross, seam, tile_inner, filler_inner, trim_inner]`. -/
def generate (size levels : Int) : Option (List Mesh) := do
  let (tile_mesh, tile_inner_mesh) ← tileBlock size
  let (filler_mesh, filler_inner_mesh, aabb) ← fillerBlock size
  let (trim_mesh, trim_inner_mesh) ← trimBlock size aabb
  let cross_mesh ← crossBlock size aabb
  let seam_mesh ← seamBlock size aabb
  return [tile_mesh, filler_mesh, trim_mesh, cross_mesh, seam_mesh,
          tile_inner_mesh, filler_inner_mesh, trim_inner_mesh]


/-!  Basic lemmas about the list and buffer combinators. -/

theorem lookup_mem {K V : Type} [DecidableEq K] {k : K} {v : V} :
    ∀ {l : List (K × V)}, List.lookup k l = some v → (k, v) ∈ l := by
  intro l
  induction l with
  | nil => intro h; simp [List.lookup] at h
  | cons p t ih =>
      obtain ⟨pk, pv⟩ := p
      intro h
      rw [List.lookup_cons] at h
      by_cases hk : k = pk
      · simp [hk] at h
        simp [hk, h]
      · simp [beq_eq_false_iff_ne.mpr hk] at h
        exact List.mem_cons_of_mem _ (ih h)

theorem lookup_none {K V : Type} [DecidableEq K] {k : K} :
    ∀ {l : List (K × V)}, List.lookup k l = none → k ∉ l.map Prod.fst := by
  intro l
  induction l with
  | nil => intro _; simp
  | cons p t ih =>
      obtain ⟨pk, pv⟩ := p
      intro h
      rw [List.lookup_cons] at h
      by_cases hk : k = pk
      · simp [hk] at h
      · simp only [beq_eq_false_iff_ne.mpr hk, if_false] at h
        simp only [List.map_cons, List.mem_cons]
        rintro (h1 | h2)
        · exact hk h1
        · exact ih h h2

theorem length_flatMap_const {α β : Type} {l : List α} {f : α → List β} {k : Nat}
    (h : ∀ a ∈ l, (f a).length = k) : (l.flatMap f).length = l.length * k := by
  induction l with
  | nil => simp
  | cons a t ih =>
      simp only [List.flatMap_cons, List.length_append, List.length_cons,
        h a (List.mem_cons_self _ _)]
      rw [ih fun x hx => h x (List.mem_cons_of_mem _ hx)]
      ring

theorem rangeI_length (n : Int) : (rangeI n).length = n.toNat := by
  simp [rangeI]

theorem mem_rangeI {n i : Int} (hn : 0 ≤ n) : i ∈ rangeI n ↔ 0 ≤ i ∧ i < n := by
  simp only [rangeI, List.mem_map, List.mem_range]
  constructor
  · rintro ⟨k, hk, rfl⟩; omega
  · rintro ⟨h0, hin⟩; exact ⟨i.toNat, by omega, by omega⟩

theorem fillChecked_exact {α : Type} (d : α) {len : Nat} {items : List α}
    (h : items.length = len) : fillChecked d len items = some items := by
  simp [fillChecked, h]

theorem fillChecked_none {α : Type} (d : α) {len : Nat} {items : List α}
    (h : len < items.length) : fillChecked d len items = none := by
  simp only [fillChecked, ite_eq_right_iff]
  intro hle
  omega

theorem writesChecked_spec {α : Type} :
    ∀ (ws : List (Nat × α)) (l : List α), (∀ w ∈ ws, w.1 < l.length) →
      ∃ l', writesChecked l ws = some l' ∧ l'.length = l.length := by
  intro ws
  induction ws with
  | nil => exact fun l _ => ⟨l, rfl, rfl⟩
  | cons w t ih =>
      rintro l h
      obtain ⟨n, v⟩ := w
      have hn : n < l.length := h (n, v) (List.mem_cons_self _ _)
      obtain ⟨l', hl', hlen⟩ := ih (l.set n v) fun w hw => by
        have := h w (List.mem_cons_of_mem _ hw)
        simpa using this
      refine ⟨l', ?_, by simpa using hlen⟩
      simp [writesChecked, writeChecked, hn, hl']

/-!  Well-formedness of a triangle list and totality of `subdivide_half`. -/

/-- Well-formed mesh data: every index addresses a vertex and the index count
    is a multiple of 3. -/
def MeshWF (vertices : List Vec3) (indices : List Int) : Prop :=
  (∀ i ∈ indices, 0 ≤ i ∧ i < (vertices.length : Int)) ∧ indices.length % 3 = 0

instance (vertices : List Vec3) (indices : List Int) :
    Decidable (MeshWF vertices indices) := by
  unfold MeshWF; infer_instance

/-- In-range index. -/
def okIdx (vertices : List Vec3) (i : Int) : Prop :=
  0 ≤ i ∧ i < (vertices.length : Int)

theorem chunks3_spec : ∀ {l : List Int}, l.length % 3 = 0 →
    ∃ cs, chunks3 l = some cs ∧ l.length = 3 * cs.length ∧
      ∀ t ∈ cs, t.1 ∈ l ∧ t.2.1 ∈ l ∧ t.2.2 ∈ l
  | [], _ => ⟨[], rfl, rfl, by simp⟩
  | [_], h => by simp at h
  | [_, _], h => by simp at h
  | i0 :: i1 :: i2 :: rest, h => by
      have h3 : rest.length % 3 = 0 := by
        simp only [List.length_cons] at h; omega
      obtain ⟨cs, hcs, hlen, hmem⟩ := chunks3_spec h3
      refine ⟨(i0, i1, i2) :: cs, ?_, ?_, ?_⟩
      · simp [chunks3, hcs]
      · simp only [List.length_cons, hlen]; ring
      · rintro t ht
        rcases List.mem_cons.mp ht with rfl | ht'
        · exact ⟨by simp, by simp, by simp⟩
        · obtain ⟨ha, hb, hc⟩ := hmem t ht'
          exact ⟨by simp [ha], by simp [hb], by simp [hc]⟩

theorem find_or_add_hit {m : VertexMap} {nvs : List Vec3} {v : Vec3} {i : Int}
    (h : List.lookup (Vector3Hash.from_vector3 v) m = some i) :
    find_or_add_vertex m nvs v = (i, m, nvs) := by
  simp [find_or_add_vertex, h]

theorem find_or_add_miss {m : VertexMap} {nvs : List Vec3} {v : Vec3}
    (h : List.lookup (Vector3Hash.from_vector3 v) m = none) :
    find_or_add_vertex m nvs v =
      ((nvs.length : Int),
       (Vector3Hash.from_vector3 v, (nvs.length : Int)) :: m, nvs ++ [v]) := by
  simp [find_or_add_vertex, h]

/-- Map-validity: every index stored in the weld table addresses the buffer. -/
def MapOk (m : VertexMap) (nvs : List Vec3) : Prop :=
  ∀ p ∈ m, 0 ≤ p.2 ∧ p.2 < (nvs.length : Int)

theorem find_or_add_spec (m : VertexMap) (nvs : List Vec3) (v : Vec3)
    (hm : MapOk m nvs) :
    ∃ i m' nvs', find_or_add_vertex m nvs v = (i, m', nvs') ∧
      0 ≤ i ∧ i < (nvs'.length : Int) ∧ MapOk m' nvs' ∧
      nvs.length ≤ nvs'.length := by
  cases h : List.lookup (Vector3Hash.from_vector3 v) m with
  | some i =>
      obtain ⟨h0, hlt⟩ := hm _ (lookup_mem h)
      exact ⟨i, m, nvs, find_or_add_hit h, h0, hlt, hm, le_refl _⟩
  | none =>
      refine ⟨(nvs.length : Int), _, nvs ++ [v], find_or_add_miss h, by positivity,
        ?_, ?_, by simp⟩
      · simp only [List.length_append, List.length_cons, List.length_nil]
        push_cast
        omega
      · rintro p hp
        rcases List.mem_cons.mp hp with rfl | hp'
        · refine ⟨by simp, ?_⟩
          simp only [List.length_append, List.length_cons, List.length_nil]
          push_cast
          omega
        · obtain ⟨h0, hlt⟩ := hm p hp'
          refine ⟨h0, lt_of_lt_of_le hlt ?_⟩
          simp only [List.length_append, List.length_cons, List.length_nil]
          push_cast
          omega

/-- Invariant carried through the subdivision fold. -/
def StInv (st : SubState) : Prop :=
  MapOk st.vertex_map st.new_vertices ∧
  ∀ j ∈ st.new_indices, 0 ≤ j ∧ j < (st.new_vertices.length : Int)

theorem getVertex_some {vertices : List Vec3} {i : Int} (h : okIdx vertices i) :
    ∃ v, getVertex vertices i = some v ∧ v ∈ vertices := by
  obtain ⟨h0, hlt⟩ := h
  have hn : i.toNat < vertices.length := by omega
  refine ⟨vertices[i.toNat], ?_, List.getElem_mem hn⟩
  simp [getVertex, h0, List.getElem?_eq_getElem hn]

theorem subdivideChunk_spec (vertices : List Vec3) (st : SubState)
    (t : Int × Int × Int) (h1 : okIdx vertices t.1) (h2 : okIdx vertices t.2.1)
    (h3 : okIdx vertices t.2.2) (hst : StInv st) :
    ∃ st', subdivideChunk vertices st t = some st' ∧ StInv st' ∧
      st'.new_indices.length = st.new_indices.length + 6 ∧
      st.new_vertices.length ≤ st'.new_vertices.length := by
  obtain ⟨i0, i1, i2⟩ := t
  obtain ⟨a, ha, hav⟩ := getVertex_some h1
  obtain ⟨b, hb, hbv⟩ := getVertex_some h2
  obtain ⟨c, hc, hcv⟩ := getVertex_some h3
  simp only [subdivideChunk, ha, hb, hc, Option.bind_eq_bind, Option.some_bind]
  split_ifs with hA hB
  · obtain ⟨ja, m1, n1, hf1, ha0, halt, hm1, hl1⟩ :=
      find_or_add_spec st.vertex_map st.new_vertices a hst.1
    obtain ⟨jb, m2, n2, hf2, hb0, hblt, hm2, hl2⟩ := find_or_add_spec m1 n1 b hm1
    obtain ⟨jc, m3, n3, hf3, hc0, hclt, hm3, hl3⟩ := find_or_add_spec m2 n2 c hm2
    obtain ⟨jm, m4, n4, hf4, hd0, hdlt, hm4, hl4⟩ :=
      find_or_add_spec m3 n3 (midpoint a b) hm3
    rw [hf1, hf2, hf3, hf4]
    refine ⟨⟨m4, n4, st.new_indices ++ [ja, jm, jc, jm, jb, jc]⟩, rfl, ⟨hm4, ?_⟩,
      by simp, by simp; omega⟩
    have h1' : (n1.length : Int) ≤ (n4.length : Int) := by exact_mod_cast by omega
    have h2' : (n2.length : Int) ≤ (n4.length : Int) := by exact_mod_cast by omega
    have h3' : (n3.length : Int) ≤ (n4.length : Int) := by exact_mod_cast by omega
    have h0' : (st.new_vertices.length : Int) ≤ (n4.length : Int) := by
      exact_mod_cast by omega
    rintro j hj
    simp only [List.mem_append, List.mem_cons, List.not_mem_nil, or_false] at hj
    rcases hj with hj | rfl | rfl | rfl | rfl | rfl | rfl
    · obtain ⟨hj0, hjlt⟩ := hst.2 j hj
      exact ⟨hj0, lt_of_lt_of_le hjlt h0'⟩
    · exact ⟨ha0, lt_of_lt_of_le halt h1'⟩
    · exact ⟨hd0, hdlt⟩
    · exact ⟨hc0, lt_of_lt_of_le hclt h3'⟩
    · exact ⟨hd0, hdlt⟩
    · exact ⟨hb0, lt_of_lt_of_le hblt h2'⟩
    · exact ⟨hc0, lt_of_lt_of_le hclt h3'⟩
  · obtain ⟨ja, m1, n1, hf1, ha0, halt, hm1, hl1⟩ :=
      find_or_add_spec st.vertex_map st.new_vertices a hst.1
    obtain ⟨jb, m2, n2, hf2, hb0, hblt, hm2, hl2⟩ := find_or_add_spec m1 n1 b hm1
    obtain ⟨jc, m3, n3, hf3, hc0, hclt, hm3, hl3⟩ := find_or_add_spec m2 n2 c hm2
    obtain ⟨jm, m4, n4, hf4, hd0, hdlt, hm4, hl4⟩ :=
      find_or_add_spec m3 n3 (midpoint b c) hm3
    rw [hf1, hf2, hf3, hf4]
    refine ⟨⟨m4, n4, st.new_indices ++ [jb, jm, ja, jm, jc, ja]⟩, rfl, ⟨hm4, ?_⟩,
      by simp, by simp; omega⟩
    have h1' : (n1.length : Int) ≤ (n4.length : Int) := by exact_mod_cast by omega
    have h2' : (n2.length : Int) ≤ (n4.length : Int) := by exact_mod_cast by omega
    have h3' : (n3.length : Int) ≤ (n4.length : Int) := by exact_mod_cast by omega
    have h0' : (st.new_vertices.length : Int) ≤ (n4.length : Int) := by
      exact_mod_cast by omega
    rintro j hj
    simp only [List.mem_append, List.mem_cons, List.not_mem_nil, or_false] at hj
    rcases hj with hj | rfl | rfl | rfl | rfl | rfl | rfl
    · obtain ⟨hj0, hjlt⟩ := hst.2 j hj
      exact ⟨hj0, lt_of_lt_of_le hjlt h0'⟩
    · exact ⟨hb0, lt_of_lt_of_le hblt h2'⟩
    · exact ⟨hd0, hdlt⟩
    · exact ⟨ha0, lt_of_lt_of_le halt h1'⟩
    · exact ⟨hd0, hdlt⟩
    · exact ⟨hc0, lt_of_lt_of_le hclt h3'⟩
    · exact ⟨ha0, lt_of_lt_of_le halt h1'⟩
  · obtain ⟨ja, m1, n1, hf1, ha0, halt, hm1, hl1⟩ :=
      find_or_add_spec st.vertex_map st.new_vertices a hst.1
    obtain ⟨jb, m2, n2, hf2, hb0, hblt, hm2, hl2⟩ := find_or_add_spec m1 n1 b hm1
    obtain ⟨jc, m3, n3, hf3, hc0, hclt, hm3, hl3⟩ := find_or_add_spec m2 n2 c hm2
    obtain ⟨jm, m4, n4, hf4, hd0, hdlt, hm4, hl4⟩ :=
      find_or_add_spec m3 n3 (midpoint c a) hm3
    rw [hf1, hf2, hf3, hf4]
    refine ⟨⟨m4, n4, st.new_indices ++ [jc, jm, jb, jm, ja, jb]⟩, rfl, ⟨hm4, ?_⟩,
      by simp, by simp; omega⟩
    have h1' : (n1.length : Int) ≤ (n4.length : Int) := by exact_mod_cast by omega
    have h2' : (n2.length : Int) ≤ (n4.length : Int) := by exact_mod_cast by omega
    have h3' : (n3.length : Int) ≤ (n4.length : Int) := by exact_mod_cast by omega
    have h0' : (st.new_vertices.length : Int) ≤ (n4.length : Int) := by
      exact_mod_cast by omega
    rintro j hj
    simp only [List.mem_append, List.mem_cons, List.not_mem_nil, or_false] at hj
    rcases hj with hj | rfl | rfl | rfl | rfl | rfl | rfl
    · obtain ⟨hj0, hjlt⟩ := hst.2 j hj
      exact ⟨hj0, lt_of_lt_of_le hjlt h0'⟩
    · exact ⟨hc0, lt_of_lt_of_le hclt h3'⟩
    · exact ⟨hd0, hdlt⟩
    · exact ⟨hb0, lt_of_lt_of_le hblt h2'⟩
    · exact ⟨hd0, hdlt⟩
    · exact ⟨ha0, lt_of_lt_of_le halt h1'⟩
    · exact ⟨hb0, lt_of_lt_of_le hblt h2'⟩

theorem foldChunks_spec (vertices : List Vec3) :
    ∀ (cs : List (Int × Int × Int)) (st : SubState),
      (∀ t ∈ cs, okIdx vertices t.1 ∧ okIdx vertices t.2.1 ∧ okIdx vertices t.2.2) →
      StInv st →
      ∃ st', List.foldlM (subdivideChunk vertices) st cs = some st' ∧ StInv st' ∧
        st'.new_indices.length = st.new_indices.length + 6 * cs.length ∧
        st.new_vertices.length ≤ st'.new_vertices.length := by
  intro cs
  induction cs with
  | nil => exact fun st _ hst => ⟨st, rfl, hst, by simp, le_refl _⟩
  | cons t ts ih =>
      intro st hok hst
      obtain ⟨h1, h2, h3⟩ := hok t (List.mem_cons_self _ _)
      obtain ⟨st1, hst1, hinv1, hlen1, hmono1⟩ := subdivideChunk_spec vertices st t h1 h2 h3 hst
      obtain ⟨st', hst', hinv', hlen', hmono'⟩ :=
        ih st1 (fun u hu => hok u (List.mem_cons_of_mem _ hu)) hinv1
      refine ⟨st', ?_, hinv', ?_, le_trans hmono1 hmono'⟩
      · simp [List.foldlM_cons, hst1, hst']
      · simp only [List.length_cons]
        omega

/-- Totality, well-formedness preservation and the doubling law of one
    `subdivide_half` pass on well-formed input. -/
theorem subdivide_half_total {vertices : List Vec3} {indices : List Int}
    (h : MeshWF vertices indices) :
    ∃ nv ni, subdivide_half vertices indices = some (nv, ni) ∧
      MeshWF nv ni ∧ ni.length = 2 * indices.length := by
  obtain ⟨cs, hcs, hlen, hmem⟩ := chunks3_spec h.2
  have hok : ∀ t ∈ cs, okIdx vertices t.1 ∧ okIdx vertices t.2.1 ∧ okIdx vertices t.2.2 := by
    intro t ht
    obtain ⟨ha, hb, hc⟩ := hmem t ht
    exact ⟨h.1 _ ha, h.1 _ hb, h.1 _ hc⟩
  obtain ⟨st', hfold, hinv, hilen, _⟩ :=
    foldChunks_spec vertices cs ⟨[], [], []⟩ hok ⟨by intro p hp; simp at hp, by simp⟩
  refine ⟨st'.new_vertices, st'.new_indices, ?_, ⟨hinv.2, ?_⟩, ?_⟩
  · simp [subdivide_half, hcs, hfold]
  · simp only [List.length_nil] at hilen
    omega
  · simp only [List.length_nil] at hilen
    omega

/-!  Lengths and well-formedness of the emitted vertex / index streams. -/

theorem toNat_mul_of_nonneg {a b : Int} (ha : 0 ≤ a) (hb : 0 ≤ b) :
    (a * b).toNat = a.toNat * b.toNat := by
  obtain ⟨m, rfl⟩ := Int.eq_ofNat_of_zero_le ha
  obtain ⟨n, rfl⟩ := Int.eq_ofNat_of_zero_le hb
  rw [← Int.natCast_mul, Int.toNat_natCast, Int.toNat_natCast, Int.toNat_natCast]

theorem latticeVertexStream_length (s : Int) :
    (latticeVertexStream s).length = (s + 1).toNat * (s + 1).toNat := by
  rw [latticeVertexStream,
    length_flatMap_const (k := (s + 1).toNat) fun a _ => by simp [rangeI_length],
    rangeI_length]

theorem latticeIndexStream_length (s : Int) :
    (latticeIndexStream s).length = s.toNat * (s.toNat * 6) := by
  have hrow : ∀ a ∈ rangeI s, ((rangeI s).flatMap fun x =>
      [patch_2d x a (s + 1), patch_2d (x + 1) (a + 1) (s + 1),
       patch_2d x (a + 1) (s + 1), patch_2d x a (s + 1),
       patch_2d (x + 1) a (s + 1), patch_2d (x + 1) (a + 1) (s + 1)]).length
        = s.toNat * 6 := by
    intro a _
    have h6 : ∀ x ∈ rangeI s, ([patch_2d x a (s + 1), patch_2d (x + 1) (a + 1) (s + 1),
        patch_2d x (a + 1) (s + 1), patch_2d x a (s + 1),
        patch_2d (x + 1) a (s + 1), patch_2d (x + 1) (a + 1) (s + 1)] : List Int).length = 6 :=
      fun x _ => rfl
    rw [length_flatMap_const h6, rangeI_length]
  rw [latticeIndexStream, length_flatMap_const hrow, rangeI_length]

theorem patch_2d_bound {x y s : Int} (hx : 0 ≤ x) (hx2 : x ≤ s) (hy : 0 ≤ y)
    (hy2 : y ≤ s) :
    0 ≤ patch_2d x y (s + 1) ∧ patch_2d x y (s + 1) < (s + 1) * (s + 1) := by
  unfold patch_2d
  have h0 : 0 ≤ y * (s + 1) := mul_nonneg hy (by omega)
  have h1 : y * (s + 1) ≤ s * (s + 1) := mul_le_mul_of_nonneg_right hy2 (by omega)
  have h2 : (s + 1) * (s + 1) = s * (s + 1) + (s + 1) := by ring
  constructor
  · omega
  · linarith

theorem lattice_wf (s : Int) (hs : 1 ≤ s) :
    MeshWF (latticeVertexStream s) (latticeIndexStream s) := by
  constructor
  · intro i hi
    have hlen : ((latticeVertexStream s).length : Int) = (s + 1) * (s + 1) := by
      rw [latticeVertexStream_length, ← toNat_mul_of_nonneg (by omega) (by omega),
        Int.toNat_of_nonneg (by positivity)]
    rw [hlen]
    simp only [latticeIndexStream, List.mem_flatMap, mem_rangeI (by omega : (0:Int) ≤ s)]
      at hi
    obtain ⟨y, ⟨hy0, hys⟩, x, ⟨hx0, hxs⟩, hmem⟩ := hi
    simp only [List.mem_cons, List.not_mem_nil, or_false] at hmem
    rcases hmem with rfl | rfl | rfl | rfl | rfl | rfl
    · exact patch_2d_bound hx0 (by omega) hy0 (by omega)
    · exact patch_2d_bound (by omega) (by omega) (by omega) (by omega)
    · exact patch_2d_bound hx0 (by omega) (by omega) (by omega)
    · exact patch_2d_bound hx0 (by omega) hy0 (by omega)
    · exact patch_2d_bound (by omega) (by omega) hy0 (by omega)
    · exact patch_2d_bound (by omega) (by omega) (by omega) (by omega)
  · rw [latticeIndexStream_length]
    have h3 : s.toNat * (s.toNat * 6) = 3 * (s.toNat * (s.toNat * 2)) := by ring
    omega

theorem rangeI_nodup (n : Int) : (rangeI n).Nodup :=
  (List.nodup_range n.toNat).map fun a b h => by exact_mod_cast h

theorem length_flatMap_pair {α β : Type} (l : List α) (g h : α → β) :
    (l.flatMap fun i => [g i, h i]).length = l.length * 2 :=
  length_flatMap_const fun a _ => rfl

theorem length_flatMap_six {α : Type} (l : List α) (g1 g2 g3 g4 g5 g6 : α → Int) :
    (l.flatMap fun i => [g1 i, g2 i, g3 i, g4 i, g5 i, g6 i]).length = l.length * 6 :=
  length_flatMap_const fun a _ => rfl

theorem trimVertexStream_length (s : Int) :
    (trimVertexStream s).length = (s + 1).toNat * 8 := by
  simp only [trimVertexStream, List.length_append]
  rw [length_flatMap_pair, length_flatMap_pair, length_flatMap_pair,
    length_flatMap_pair, rangeI_length]
  ring

theorem trimIndexStream_length (s : Int) :
    (trimIndexStream s).length = (s * 4).toNat * 6 := by
  rw [trimIndexStream]
  rw [length_flatMap_const (k := 6) ?h, rangeI_length]
  case h =>
    intro i _
    dsimp only
    split_ifs <;> rfl

theorem trim_wf (s : Int) (hs : 1 ≤ s) :
    MeshWF (trimVertexStream s) (trimIndexStream s) := by
  constructor
  · intro i hi
    have hlen : ((trimVertexStream s).length : Int) = (s + 1) * 8 := by
      rw [trimVertexStream_length]
      have h1 : ((s + 1).toNat : Int) = s + 1 := Int.toNat_of_nonneg (by omega)
      push_cast [h1]
      ring
    rw [hlen]
    simp only [trimIndexStream, List.mem_flatMap,
      mem_rangeI (by omega : (0 : Int) ≤ s * 4)] at hi
    obtain ⟨j, ⟨hj0, hj4⟩, hmem⟩ := hi
    have harm0 : 0 ≤ j / s := Int.ediv_nonneg hj0 (by omega)
    have harm3 : j / s < 4 := by
      rw [Int.ediv_lt_iff_lt_mul (by omega)]
      omega
    obtain ⟨arm, harm⟩ : ∃ t, j / s = t := ⟨_, rfl⟩
    rw [harm] at harm0 harm3 hmem
    by_cases hp : arm % 2 = 0
    · rw [if_pos hp] at hmem
      simp only [List.mem_cons, List.not_mem_nil, or_false] at hmem
      rcases hmem with rfl | rfl | rfl | rfl | rfl | rfl <;> omega
    · rw [if_neg hp] at hmem
      simp only [List.mem_cons, List.not_mem_nil, or_false] at hmem
      rcases hmem with rfl | rfl | rfl | rfl | rfl | rfl <;> omega
  · rw [trimIndexStream_length]
    omega

theorem crossVertexStream_length (s : Int) :
    (crossVertexStream s).length = ((s + 1) * 2).toNat * 4 := by
  simp only [crossVertexStream, List.length_append]
  rw [length_flatMap_pair, length_flatMap_pair, rangeI_length]
  ring

theorem length_flatMap_skip_aux {α β : Type} [DecidableEq α] (b : α)
    (f : α → List β) (k : Nat) (hfb : (f b).length = 0) :
    ∀ (l : List α), (∀ a ∈ l, a ≠ b → (f a).length = k) → l.Nodup → b ∈ l →
      (l.flatMap f).length = (l.length - 1) * k := by
  intro l
  induction l with
  | nil => intro _ _ hbl; simp at hbl
  | cons a t ih =>
      intro hf hnd hbl
      simp only [List.flatMap_cons, List.length_append, List.length_cons]
      by_cases hab : a = b
      · subst hab
        have hbt : a ∉ t := (List.nodup_cons.mp hnd).1
        rw [hfb,
          length_flatMap_const fun x hx =>
            hf x (List.mem_cons_of_mem _ hx) fun he => hbt (he ▸ hx)]
        simp [Nat.add_sub_cancel]
      · have hbt : b ∈ t := by
          rcases List.mem_cons.mp hbl with rfl | h
          · exact absurd rfl hab
          · exact h
        rw [hf a (List.mem_cons_self _ _) hab,
          ih (fun x hx hxb => hf x (List.mem_cons_of_mem _ hx) hxb)
            (List.nodup_cons.mp hnd).2 hbt]
        obtain ⟨u, hu⟩ : ∃ u, t.length = u + 1 :=
          ⟨t.length - 1, by
            have h1 : 1 ≤ t.length := List.length_pos.mpr (List.ne_nil_of_mem hbt)
            omega⟩
        rw [hu]
        simp only [Nat.add_sub_cancel]
        ring

theorem length_flatMap_skip {α β : Type} [DecidableEq α] {l : List α} {b : α}
    {f : α → List β} {k : Nat} (hfb : (f b).length = 0)
    (hf : ∀ a ∈ l, a ≠ b → (f a).length = k) (hnd : l.Nodup) (hbl : b ∈ l) :
    (l.flatMap f).length = (l.length - 1) * k :=
  length_flatMap_skip_aux b f k hfb l hf hnd hbl

theorem crossIndexStream_length (s : Int) (hs : 1 ≤ s) :
    (crossIndexStream s).length = (s * 24 + 6).toNat := by
  simp only [crossIndexStream, List.length_append]
  rw [length_flatMap_six, rangeI_length]
  rw [length_flatMap_skip (b := s) (k := 6) ?h1 ?h2 (rangeI_nodup _) ?h4,
    rangeI_length]
  case h1 => simp
  case h2 =>
    intro a _ ha
    rw [if_neg ha]
    rfl
  case h4 =>
    rw [mem_rangeI (by omega)]
    omega
  omega

theorem cross_wf (s : Int) (hs : 1 ≤ s) :
    MeshWF (crossVertexStream s) (crossIndexStream s) := by
  constructor
  · intro i hi
    have hlen : ((crossVertexStream s).length : Int) = (s + 1) * 8 := by
      rw [crossVertexStream_length]
      have h1 : (((s + 1) * 2).toNat : Int) = (s + 1) * 2 :=
        Int.toNat_of_nonneg (by omega)
      push_cast [h1]
      ring
    rw [hlen]
    simp only [crossIndexStream, List.mem_append, List.mem_flatMap,
      mem_rangeI (by omega : (0 : Int) ≤ s * 2 + 1)] at hi
    rcases hi with ⟨j, ⟨hj0, hj2⟩, hmem⟩ | ⟨j, ⟨hj0, hj2⟩, hmem⟩
    · simp only [List.mem_cons, List.not_mem_nil, or_false] at hmem
      rcases hmem with rfl | rfl | rfl | rfl | rfl | rfl <;> omega
    · by_cases hjs : j = s
      · rw [if_pos hjs] at hmem
        simp at hmem
      · rw [if_neg hjs] at hmem
        simp only [start_of_vertical, List.mem_cons, List.not_mem_nil, or_false] at hmem
        rcases hmem with rfl | rfl | rfl | rfl | rfl | rfl <;> omega
  · rw [crossIndexStream_length s hs]
    omega

theorem seamIndexStreamRaw_length (s : Int) :
    (seamIndexStreamRaw s).length = ((s * 4 + 2) * 2).toNat * 3 := by
  simp only [seamIndexStreamRaw]
  rw [length_flatMap_const (k := 3) ?h, List.length_range]
  case h => intro a _; rfl

theorem set_last_flatMap_three (g1 g2 g3 : Nat → Int) (N : Nat) (hN : 1 ≤ N) :
    ((List.range N).flatMap fun k => [g1 k, g2 k, g3 k]).set (N * 3 - 1) 0 =
      ((List.range (N - 1)).flatMap fun k => [g1 k, g2 k, g3 k]) ++
        [g1 (N - 1), g2 (N - 1), 0] := by
  obtain ⟨M, rfl⟩ : ∃ M, N = M + 1 := ⟨N - 1, by omega⟩
  have hlen : ((List.range M).flatMap fun k => [g1 k, g2 k, g3 k]).length = M * 3 := by
    rw [length_flatMap_const (k := 3) ?hh, List.length_range]
    case hh => intro a _; rfl
  rw [List.range_succ, List.flatMap_append]
  simp only [List.flatMap_cons, List.flatMap_nil, List.append_nil, Nat.add_sub_cancel]
  rw [List.set_append_right _ _ (by rw [hlen]; omega)]
  rw [hlen]
  have h2 : (M + 1) * 3 - 1 - M * 3 = 2 := by omega
  rw [h2]
  rfl

theorem seamWrites_pos_bound (s : Int) (hs : 1 ≤ s) :
    ∀ w ∈ seamWrites s, w.1 < ((s * 4 + 2) * 4).toNat := by
  intro w hw
  have hc : ((s * 4 + 2) * 4).toNat = (s * 4 + 2).toNat * 4 :=
    toNat_mul_of_nonneg (by omega) (by omega)
  simp only [seamWrites, List.mem_flatMap, List.mem_range] at hw
  obtain ⟨i, hi, hmem⟩ := hw
  simp only [List.mem_cons, List.not_mem_nil, or_false] at hmem
  rcases hmem with rfl | rfl | rfl | rfl <;> (dsimp only; omega)

theorem seamBlock_spec (s : Int) (hs : 1 ≤ s) (aabb : Aabb) :
    ∃ m, seamBlock s aabb = some m ∧ m.aabb = aabb ∧
      m.vertices.length = ((s * 4 + 2) * 4).toNat ∧
      m.indices.length = ((s * 4 + 2) * 6).toNat ∧
      m.indices.getLast? = some 0 ∧
      MeshWF m.vertices m.indices := by
  have h2 : ((s * 4 + 2) * 2).toNat = (s * 4 + 2).toNat * 2 :=
    toNat_mul_of_nonneg (by omega) (by omega)
  have h4 : ((s * 4 + 2) * 4).toNat = (s * 4 + 2).toNat * 4 :=
    toNat_mul_of_nonneg (by omega) (by omega)
  have h6 : ((s * 4 + 2) * 6).toNat = (s * 4 + 2).toNat * 6 :=
    toNat_mul_of_nonneg (by omega) (by omega)
  have hcpos : 6 ≤ (s * 4 + 2).toNat := by omega
  obtain ⟨vs, hvs, hvslen⟩ := writesChecked_spec (seamWrites s)
      (List.replicate ((s * 4 + 2) * 4).toNat (default : Vec3))
      (fun w hw => by
        rw [List.length_replicate]
        exact seamWrites_pos_bound s hs w hw)
  have hraw : (seamIndexStreamRaw s).length = ((s * 4 + 2) * 6).toNat := by
    rw [seamIndexStreamRaw_length]
    omega
  have hfill : fillChecked 0 ((s * 4 + 2) * 6).toNat (seamIndexStreamRaw s) =
      some (seamIndexStreamRaw s) := fillChecked_exact _ hraw
  have hne : ¬ (seamIndexStreamRaw s).length = 0 := by
    rw [hraw]
    omega
  have hdec : (seamIndexStreamRaw s).set ((((s * 4 + 2) * 2).toNat) * 3 - 1) 0 =
      ((List.range (((s * 4 + 2) * 2).toNat - 1)).flatMap fun k =>
        [((2 * k + 1 : Nat) : Int), ((2 * k : Nat) : Int), ((2 * k + 2 : Nat) : Int)]) ++
      [((2 * (((s * 4 + 2) * 2).toNat - 1) + 1 : Nat) : Int),
       ((2 * (((s * 4 + 2) * 2).toNat - 1) : Nat) : Int), 0] :=
    set_last_flatMap_three _ _ _ _ (by omega)
  have hsetpos : (seamIndexStreamRaw s).length - 1 = (((s * 4 + 2) * 2).toNat) * 3 - 1 := by
    rw [seamIndexStreamRaw_length]
  refine ⟨create_mesh vs
      ((seamIndexStreamRaw s).set ((seamIndexStreamRaw s).length - 1) 0) aabb,
    ?_, rfl, ?_, ?_, ?_, ⟨?_, ?_⟩⟩
  · simp only [seamBlock, hvs, hfill, Option.bind_eq_bind, Option.some_bind, if_neg hne]
    rfl
  · simp only [create_mesh]
    rw [hvslen, List.length_replicate]
  · simp only [create_mesh]
    rw [List.length_set, hraw]
  · simp only [create_mesh]
    rw [hsetpos, hdec, show ∀ x y : Int, [x, y, (0 : Int)] = [x, y] ++ [0] from
      fun x y => rfl, ← List.append_assoc, List.getLast?_concat]
  · simp only [create_mesh]
    intro i hi
    rw [hsetpos, hdec] at hi
    have hvl : vs.length = (s * 4 + 2).toNat * 4 := by
      rw [hvslen, List.length_replicate, h4]
    rw [hvl]
    rcases List.mem_append.mp hi with hA | hT
    · simp only [List.mem_flatMap, List.mem_range, List.mem_cons, List.not_mem_nil,
        or_false] at hA
      obtain ⟨k, hk, hmem⟩ := hA
      rcases hmem with rfl | rfl | rfl <;> omega
    · simp only [List.mem_cons, List.not_mem_nil, or_false] at hT
      rcases hT with rfl | rfl | rfl <;> omega
  · simp only [create_mesh]
    rw [List.length_set, hraw, h6]
    omega

/-!  Evaluation of the five mesh blocks. -/

theorem latticeVertexFill (s : Int) (hs : 1 ≤ s) :
    fillChecked (default : Vec3) ((s + 1) * (s + 1)).toNat (latticeVertexStream s) =
      some (latticeVertexStream s) :=
  fillChecked_exact _ (by
    rw [latticeVertexStream_length, toNat_mul_of_nonneg (by omega) (by omega)])

theorem latticeIndexFill (s : Int) (hs : 1 ≤ s) :
    fillChecked (0 : Int) (s * s * 6).toNat (latticeIndexStream s) =
      some (latticeIndexStream s) :=
  fillChecked_exact _ (by
    rw [latticeIndexStream_length,
      toNat_mul_of_nonneg (by positivity) (by omega),
      toNat_mul_of_nonneg (by omega) (by omega)]
    rw [show (6 : Int).toNat = 6 from rfl]
    ring)

theorem tileBlock_spec (s : Int) (hs : 1 ≤ s) :
    ∃ q, subdivide_half (latticeVertexStream s) (latticeIndexStream s) = some q ∧
      tileBlock s = some (create_mesh q.1 q.2 (tileAabb s),
        create_mesh (latticeVertexStream s) (latticeIndexStream s) (tileAabb s)) ∧
      MeshWF q.1 q.2 ∧ q.2.length = 2 * (latticeIndexStream s).length := by
  obtain ⟨nv, ni, hsub, hwf, hlen⟩ := subdivide_half_total (lattice_wf s hs)
  refine ⟨(nv, ni), hsub, ?_, hwf, hlen⟩
  simp only [tileBlock, latticeVertexFill s hs, latticeIndexFill s hs, hsub,
    Option.bind_eq_bind, Option.some_bind, Option.pure_def]

theorem fillerBlock_none (s : Int) (hs : 1 ≤ s) : fillerBlock s = none := by
  have hlt : (s + 1).toNat < (latticeVertexStream s).length := by
    rw [latticeVertexStream_length]
    have h2 : 2 ≤ (s + 1).toNat := by omega
    nlinarith
  simp only [fillerBlock, fillChecked_none _ hlt, Option.bind_eq_bind,
    Option.none_bind]

theorem trimVertexFill (s : Int) (hs : 1 ≤ s) :
    fillChecked (default : Vec3) ((s + 1) * 8).toNat (trimVertexStream s) =
      some (trimVertexStream s) :=
  fillChecked_exact _ (by
    rw [trimVertexStream_length, toNat_mul_of_nonneg (by omega) (by omega)]
    rw [show (8 : Int).toNat = 8 from rfl])

theorem trimIndexFill (s : Int) (hs : 1 ≤ s) :
    fillChecked (0 : Int) (s * 24).toNat (trimIndexStream s) =
      some (trimIndexStream s) :=
  fillChecked_exact _ (by
    rw [trimIndexStream_length, toNat_mul_of_nonneg (by omega) (by omega),
      toNat_mul_of_nonneg (by omega) (by omega)]
    rw [show (4 : Int).toNat = 4 from rfl, show (24 : Int).toNat = 24 from rfl]
    omega)

theorem trimBlock_spec (s : Int) (hs : 1 ≤ s) (aabb : Aabb) :
    ∃ q, subdivide_half (trimVertexStream s) (trimIndexStream s) = some q ∧
      trimBlock s aabb = some (create_mesh q.1 q.2 aabb,
        create_mesh (trimVertexStream s) (trimIndexStream s) aabb) ∧
      MeshWF q.1 q.2 ∧ q.2.length = 2 * (trimIndexStream s).length := by
  obtain ⟨nv, ni, hsub, hwf, hlen⟩ := subdivide_half_total (trim_wf s hs)
  refine ⟨(nv, ni), hsub, ?_, hwf, hlen⟩
  simp only [trimBlock, trimVertexFill s hs, trimIndexFill s hs, hsub,
    Option.bind_eq_bind, Option.some_bind, Option.pure_def]

theorem crossVertexFill (s : Int) (hs : 1 ≤ s) :
    fillChecked (default : Vec3) ((s + 1) * 8).toNat (crossVertexStream s) =
      some (crossVertexStream s) :=
  fillChecked_exact _ (by
    rw [crossVertexStream_length, toNat_mul_of_nonneg (by omega) (by omega),
      toNat_mul_of_nonneg (by omega) (by omega)]
    rw [show (2 : Int).toNat = 2 from rfl, show (8 : Int).toNat = 8 from rfl]
    omega)

theorem crossIndexFill (s : Int) (hs : 1 ≤ s) :
    fillChecked (0 : Int) (s * 24 + 6).toNat (crossIndexStream s) =
      some (crossIndexStream s) :=
  fillChecked_exact _ (crossIndexStream_length s hs)

theorem crossBlock_spec (s : Int) (hs : 1 ≤ s) (aabb : Aabb) :
    crossBlock s aabb =
      some (create_mesh (crossVertexStream s) (crossIndexStream s) aabb) := by
  simp only [crossBlock, crossVertexFill s hs, crossIndexFill s hs,
    Option.bind_eq_bind, Option.some_bind, Option.pure_def]

/-- For every positive `size`, `generate` fails: the Filler block resizes its
    vertex buffer to `patch_vert_resolution` slots but its fill loop performs
    `patch_vert_resolution²` writes, and the write at offset
    `patch_vert_resolution` is out of bounds. -/
theorem generate_none (s levels : Int) (hs : 1 ≤ s) : generate s levels = none := by
  obtain ⟨q, hsub, htile, _, _⟩ := tileBlock_spec s hs
  simp only [generate, htile, fillerBlock_none s hs, Option.bind_eq_bind,
    Option.some_bind, Option.none_bind]

/-!  Specification-side description of one bisection pass (spec section 4.2). -/

/-- The three edges of a triangle, in the spec's fixed evaluation order. -/
inductive EdgeSel
  | AB
  | BC
  | CA
deriving DecidableEq

/-- Squared length of an edge of the triangle `(a, b, c)`. -/
def edgeLenSq (a b c : Vec3) : EdgeSel → ℚ
  | .AB => (b.sub a).length_squared
  | .BC => (c.sub b).length_squared
  | .CA => (a.sub c).length_squared

/-- The two edges other than the selected one. -/
def othersOf : EdgeSel → EdgeSel × EdgeSel
  | .AB => (.BC, .CA)
  | .BC => (.AB, .CA)
  | .CA => (.AB, .BC)

/-- Spec rule for the split edge: evaluate AB, then BC, then CA in that fixed
    order and take the first whose length is at least both others. -/
def chooseEdge (a b c : Vec3) : EdgeSel :=
  (([EdgeSel.AB, EdgeSel.BC, EdgeSel.CA]).find? fun e =>
    decide (edgeLenSq a b c (othersOf e).1 ≤ edgeLenSq a b c e ∧
            edgeLenSq a b c (othersOf e).2 ≤ edgeLenSq a b c e)).getD EdgeSel.CA

/-- One triangle of a bisection pass as the spec words it: weld the corners,
    pick the split edge by `chooseEdge`, weld the midpoint of that edge and
    replace the triangle by the two halves `(A, M, C)` and `(M, B, C)` (up to
    the corresponding relabelling for a BC or CA win). -/
def subdivideChunkSpec (vertices : List Vec3) (st : SubState) :
    Int × Int × Int → Option SubState :=
  fun (id_0, id_1, id_2) => do
    let a ← getVertex vertices id_0
    let b ← getVertex vertices id_1
    let c ← getVertex vertices id_2
    let (a_id, m1, v1) := find_or_add_vertex st.vertex_map st.new_vertices a
    let (b_id, m2, v2) := find_or_add_vertex m1 v1 b
    let (c_id, m3, v3) := find_or_add_vertex m2 v2 c
    match chooseEdge a b c with
    | .AB =>
        let (mid_id, m4, v4) := find_or_add_vertex m3 v3 (midpoint a b)
        some ⟨m4, v4, st.new_indices ++ [a_id, mid_id, c_id, mid_id, b_id, c_id]⟩
    | .BC =>
        let (mid_id, m4, v4) := find_or_add_vertex m3 v3 (midpoint b c)
        some ⟨m4, v4, st.new_indices ++ [b_id, mid_id, a_id, mid_id, c_id, a_id]⟩
    | .CA =>
        let (mid_id, m4, v4) := find_or_add_vertex m3 v3 (midpoint c a)
        some ⟨m4, v4, st.new_indices ++ [c_id, mid_id, b_id, mid_id, a_id, b_id]⟩

/-- One bisection pass as the spec words it. -/
def subdivide_half_spec (vertices : List Vec3) (indices : List Int) :
    Option (List Vec3 × List Int) := do
  let cs ← chunks3 indices
  let st ← cs.foldlM (subdivideChunkSpec vertices) ⟨[], [], []⟩
  return (st.new_vertices, st.new_indices)

theorem chooseEdge_AB {a b c : Vec3}
    (h : (b.sub a).length_squared ≥ (c.sub b).length_squared ∧
         (b.sub a).length_squared ≥ (a.sub c).length_squared) :
    chooseEdge a b c = .AB := by
  unfold chooseEdge
  rw [List.find?_cons_of_pos _ (by
    simp only [edgeLenSq, othersOf, decide_eq_true_eq]
    exact ⟨h.1, h.2⟩)]
  rfl

theorem chooseEdge_BC {a b c : Vec3}
    (hA : ¬((b.sub a).length_squared ≥ (c.sub b).length_squared ∧
            (b.sub a).length_squared ≥ (a.sub c).length_squared))
    (h : (c.sub b).length_squared ≥ (b.sub a).length_squared ∧
         (c.sub b).length_squared ≥ (a.sub c).length_squared) :
    chooseEdge a b c = .BC := by
  unfold chooseEdge
  rw [List.find?_cons_of_neg _ (by
    simp only [edgeLenSq, othersOf, decide_eq_true_eq]
    exact fun hc => hA ⟨hc.1, hc.2⟩)]
  rw [List.find?_cons_of_pos _ (by
    simp only [edgeLenSq, othersOf, decide_eq_true_eq]
    exact ⟨h.1, h.2⟩)]
  rfl

theorem chooseEdge_CA {a b c : Vec3}
    (hA : ¬((b.sub a).length_squared ≥ (c.sub b).length_squared ∧
            (b.sub a).length_squared ≥ (a.sub c).length_squared))
    (hB : ¬((c.sub b).length_squared ≥ (b.sub a).length_squared ∧
            (c.sub b).length_squared ≥ (a.sub c).length_squared)) :
    chooseEdge a b c = .CA := by
  unfold chooseEdge
  rw [List.find?_cons_of_neg _ (by
    simp only [edgeLenSq, othersOf, decide_eq_true_eq]
    exact fun hc => hA ⟨hc.1, hc.2⟩)]
  rw [List.find?_cons_of_neg _ (by
    simp only [edgeLenSq, othersOf, decide_eq_true_eq]
    exact fun hc => hB ⟨hc.1, hc.2⟩)]
  cases hfind : List.find? (fun e =>
      decide (edgeLenSq a b c (othersOf e).1 ≤ edgeLenSq a b c e ∧
              edgeLenSq a b c (othersOf e).2 ≤ edgeLenSq a b c e)) [EdgeSel.CA] with
  | none => rfl
  | some e =>
      have := List.find?_some hfind
      have hmem := List.mem_of_find?_eq_some hfind
      simp only [List.mem_singleton] at hmem
      subst hmem
      rfl

theorem subdivideChunk_eq_spec (vertices : List Vec3) (st : SubState)
    (t : Int × Int × Int) :
    subdivideChunk vertices st t = subdivideChunkSpec vertices st t := by
  obtain ⟨i0, i1, i2⟩ := t
  simp only [subdivideChunk, subdivideChunkSpec]
  cases ha : getVertex vertices i0 with
  | none => rfl
  | some a =>
  cases hb : getVertex vertices i1 with
  | none => rfl
  | some b =>
  cases hc : getVertex vertices i2 with
  | none => rfl
  | some c =>
  simp only [Option.bind_eq_bind, Option.some_bind]
  split_ifs with hA hB
  · rw [chooseEdge_AB hA]
  · rw [chooseEdge_BC hA hB]
  · rw [chooseEdge_CA hA hB]

theorem foldlM_chunk_congr (vertices : List Vec3) :
    ∀ (cs : List (Int × Int × Int)) (st : SubState),
      List.foldlM (subdivideChunk vertices) st cs =
      List.foldlM (subdivideChunkSpec vertices) st cs := by
  intro cs
  induction cs with
  | nil => intro st; rfl
  | cons t ts ih =>
      intro st
      rw [List.foldlM_cons, List.foldlM_cons, subdivideChunk_eq_spec]
      cases subdivideChunkSpec vertices st t with
      | none => rfl
      | some st1 =>
          simp only [Option.bind_eq_bind, Option.some_bind]
          exact ih st1

theorem subdivide_half_eq_spec (vertices : List Vec3) (indices : List Int) :
    subdivide_half vertices indices = subdivide_half_spec vertices indices := by
  unfold subdivide_half subdivide_half_spec
  cases hcs : chunks3 indices with
  | none => rfl
  | some cs =>
      simp only [Option.bind_eq_bind, Option.some_bind]
      rw [foldlM_chunk_congr]

/-- Signed area (doubled) of the XZ projection of a triangle; its sign captures
    the winding. -/
def signedAreaXZ (a b c : Vec3) : ℚ :=
  (b.x - a.x) * (c.z - a.z) - (b.z - a.z) * (c.x - a.x)

theorem signedAreaXZ_split_halves (a b c : Vec3) :
    signedAreaXZ a (midpoint a b) c = signedAreaXZ a b c / 2 ∧
    signedAreaXZ (midpoint a b) b c = signedAreaXZ a b c / 2 := by
  unfold signedAreaXZ midpoint
  constructor <;> (dsimp only; ring)

/-!  The weld bound: one pass adds at most one vertex per distinct edge. -/

/-- Vertex position addressed by an index (`(0,0,0)` fallback, unused on
    well-formed input). -/
def resolveV (vertices : List Vec3) (i : Int) : Vec3 :=
  (getVertex vertices i).getD ⟨0, 0, 0⟩

/-- The unordered endpoint-position pairs of all triangle edges of a mesh. -/
def edgeFinset (vertices : List Vec3) (indices : List Int) : Finset (Sym2 Vec3) :=
  (((chunks3 indices).getD []).flatMap fun t =>
    [Sym2.mk (resolveV vertices t.1, resolveV vertices t.2.1),
     Sym2.mk (resolveV vertices t.2.1, resolveV vertices t.2.2),
     Sym2.mk (resolveV vertices t.2.2, resolveV vertices t.1)]).toFinset

/-- Number of distinct (position-level) edges of a mesh. -/
def distinct_edge_count (vertices : List Vec3) (indices : List Int) : Nat :=
  (edgeFinset vertices indices).card

/-- Midpoint as a function of the unordered edge. -/
def midOfEdge : Sym2 Vec3 → Vec3 :=
  Sym2.lift ⟨fun a b => midpoint a b, fun a b => by
    simp only [midpoint, Vec3.mk.injEq]
    refine ⟨by ring, by ring, by ring⟩⟩

/-- Invariant for the weld-bound argument: the key column of the table is
    duplicate-free, buffer and table have equal size, and every key is the hash
    of a position in `S`. -/
def WeldCard (S : Finset Vec3) (m : VertexMap) (nvs : List Vec3) : Prop :=
  (m.map Prod.fst).Nodup ∧ nvs.length = m.length ∧
  ∀ k ∈ m.map Prod.fst, k ∈ S.image Vector3Hash.from_vector3

theorem find_or_add_weldCard {S : Finset Vec3} {m : VertexMap} {nvs : List Vec3}
    {v : Vec3} (hv : v ∈ S) (h : WeldCard S m nvs) :
    WeldCard S (find_or_add_vertex m nvs v).2.1 (find_or_add_vertex m nvs v).2.2 := by
  obtain ⟨hnd, hlen, hkeys⟩ := h
  cases hl : List.lookup (Vector3Hash.from_vector3 v) m with
  | some i =>
      rw [find_or_add_hit hl]
      exact ⟨hnd, hlen, hkeys⟩
  | none =>
      rw [find_or_add_miss hl]
      refine ⟨?_, ?_, ?_⟩
      · simp only [List.map_cons]
        exact List.nodup_cons.mpr ⟨lookup_none hl, hnd⟩
      · simp [hlen]
      · intro k hk
        simp only [List.map_cons, List.mem_cons] at hk
        rcases hk with rfl | hk
        · exact Finset.mem_image_of_mem _ hv
        · exact hkeys k hk

/-- Premise on one triangle: corner positions and all three edge midpoints
    belong to `S`. -/
def TriInS (vertices : List Vec3) (S : Finset Vec3) (t : Int × Int × Int) : Prop :=
  resolveV vertices t.1 ∈ S ∧ resolveV vertices t.2.1 ∈ S ∧
  resolveV vertices t.2.2 ∈ S ∧
  midpoint (resolveV vertices t.1) (resolveV vertices t.2.1) ∈ S ∧
  midpoint (resolveV vertices t.2.1) (resolveV vertices t.2.2) ∈ S ∧
  midpoint (resolveV vertices t.2.2) (resolveV vertices t.1) ∈ S

theorem subdivideChunk_weldCard {vertices : List Vec3} {S : Finset Vec3}
    {st : SubState} {t : Int × Int × Int} {st' : SubState}
    (hrun : subdivideChunk vertices st t = some st')
    (hts : TriInS vertices S t)
    (h : WeldCard S st.vertex_map st.new_vertices) :
    WeldCard S st'.vertex_map st'.new_vertices := by
  obtain ⟨i0, i1, i2⟩ := t
  simp only [subdivideChunk] at hrun
  cases ha : getVertex vertices i0 with
  | none => rw [ha] at hrun; simp at hrun
  | some a =>
  cases hb : getVertex vertices i1 with
  | none => rw [ha, hb] at hrun; simp at hrun
  | some b =>
  cases hc : getVertex vertices i2 with
  | none => rw [ha, hb, hc] at hrun; simp at hrun
  | some c =>
  rw [ha, hb, hc] at hrun
  simp only [Option.bind_eq_bind, Option.some_bind] at hrun
  obtain ⟨hS1, hS2, hS3, hM1, hM2, hM3⟩ := hts
  have hra : resolveV vertices i0 = a := by simp [resolveV, ha]
  have hrb : resolveV vertices i1 = b := by simp [resolveV, hb]
  have hrc : resolveV vertices i2 = c := by simp [resolveV, hc]
  rw [hra, hrb] at hM1
  rw [hrb, hrc] at hM2
  rw [hrc, hra] at hM3
  rw [hra] at hS1
  rw [hrb] at hS2
  rw [hrc] at hS3
  split_ifs at hrun with hA hB
  · rw [Option.some_inj] at hrun
    subst hrun
    exact find_or_add_weldCard hM1
      (find_or_add_weldCard hS3 (find_or_add_weldCard hS2 (find_or_add_weldCard hS1 h)))
  · rw [Option.some_inj] at hrun
    subst hrun
    exact find_or_add_weldCard hM2
      (find_or_add_weldCard hS3 (find_or_add_weldCard hS2 (find_or_add_weldCard hS1 h)))
  · rw [Option.some_inj] at hrun
    subst hrun
    exact find_or_add_weldCard hM3
      (find_or_add_weldCard hS3 (find_or_add_weldCard hS2 (find_or_add_weldCard hS1 h)))

theorem foldChunks_weldCard {vertices : List Vec3} {S : Finset Vec3} :
    ∀ (cs : List (Int × Int × Int)) (st st' : SubState),
      (∀ t ∈ cs, TriInS vertices S t) →
      List.foldlM (subdivideChunk vertices) st cs = some st' →
      WeldCard S st.vertex_map st.new_vertices →
      WeldCard S st'.vertex_map st'.new_vertices := by
  intro cs
  induction cs with
  | nil =>
      intro st st' _ hrun h
      simp only [List.foldlM_nil, Option.pure_def, Option.some_inj] at hrun
      subst hrun
      exact h
  | cons t ts ih =>
      intro st st' hts hrun h
      rw [List.foldlM_cons] at hrun
      cases h1 : subdivideChunk vertices st t with
      | none => rw [h1] at hrun; simp at hrun
      | some st1 =>
          rw [h1] at hrun
          simp only [Option.bind_eq_bind, Option.some_bind] at hrun
          exact ih st1 st' (fun u hu => hts u (List.mem_cons_of_mem _ hu)) hrun
            (subdivideChunk_weldCard h1 (hts t (List.mem_cons_self _ _)) h)

theorem weld_bound {vertices : List Vec3} {indices : List Int}
    (h : MeshWF vertices indices) :
    ∃ nv ni, subdivide_half vertices indices = some (nv, ni) ∧
      nv.length ≤ vertices.length + distinct_edge_count vertices indices := by
  obtain ⟨nv, ni, hsub, _, _⟩ := subdivide_half_total h
  refine ⟨nv, ni, hsub, ?_⟩
  obtain ⟨cs, hcs, _, hmemidx⟩ := chunks3_spec h.2
  have hgetD : (chunks3 indices).getD [] = cs := by rw [hcs]; rfl
  set S : Finset Vec3 :=
    vertices.toFinset ∪ (edgeFinset vertices indices).image midOfEdge with hS
  have hedge : ∀ t ∈ cs, ∀ e ∈
      [Sym2.mk (resolveV vertices t.1, resolveV vertices t.2.1),
       Sym2.mk (resolveV vertices t.2.1, resolveV vertices t.2.2),
       Sym2.mk (resolveV vertices t.2.2, resolveV vertices t.1)],
      e ∈ edgeFinset vertices indices := by
    intro t ht e he
    rw [edgeFinset, List.mem_toFinset, List.mem_flatMap]
    exact ⟨t, hgetD ▸ ht, he⟩
  have hcorner : ∀ i ∈ indices, resolveV vertices i ∈ S := by
    intro i hi
    obtain ⟨v, hv, hvmem⟩ := getVertex_some (h.1 i hi)
    rw [hS]
    apply Finset.mem_union_left
    rw [resolveV, hv, Option.getD_some]
    exact List.mem_toFinset.mpr hvmem
  have hmid : ∀ t ∈ cs, ∀ x y : Vec3,
      Sym2.mk (x, y) ∈ edgeFinset vertices indices → midpoint x y ∈ S := by
    intro t ht x y hxy
    rw [hS]
    apply Finset.mem_union_right
    refine Finset.mem_image.mpr ⟨Sym2.mk (x, y), hxy, ?_⟩
    rw [midOfEdge]
    exact Sym2.lift_mk _ x y
  have hts : ∀ t ∈ cs, TriInS vertices S t := by
    intro t ht
    obtain ⟨h1, h2, h3⟩ := hmemidx t ht
    refine ⟨hcorner _ h1, hcorner _ h2, hcorner _ h3, ?_, ?_, ?_⟩
    · exact hmid t ht _ _ (hedge t ht _ (by simp))
    · exact hmid t ht _ _ (hedge t ht _ (by simp))
    · exact hmid t ht _ _ (hedge t ht _ (by simp))
  simp only [subdivide_half, hcs, Option.bind_eq_bind, Option.some_bind] at hsub
  cases hfold : List.foldlM (subdivideChunk vertices) ⟨[], [], []⟩ cs with
  | none => rw [hfold] at hsub; simp at hsub
  | some st' =>
      rw [hfold] at hsub
      simp only [Option.bind_eq_bind, Option.some_bind, Option.pure_def,
        Option.some_inj, Prod.mk.injEq] at hsub
      obtain ⟨hnv, hni⟩ := hsub
      have hwc := foldChunks_weldCard cs ⟨[], [], []⟩ st' hts hfold
        ⟨by simp, by simp, by simp⟩
      obtain ⟨hnd, hlen, hkeys⟩ := hwc
      have hkeyle : st'.vertex_map.length ≤
          (S.image Vector3Hash.from_vector3).card := by
        calc st'.vertex_map.length
            = (st'.vertex_map.map Prod.fst).length := (List.length_map _ _).symm
          _ = (st'.vertex_map.map Prod.fst).toFinset.card :=
              (List.toFinset_card_of_nodup hnd).symm
          _ ≤ (S.image Vector3Hash.from_vector3).card :=
              Finset.card_le_card fun k hk => hkeys k (List.mem_toFinset.mp hk)
      have himg : (S.image Vector3Hash.from_vector3).card ≤ S.card :=
        Finset.card_image_le
      have hScard : S.card ≤ vertices.length + distinct_edge_count vertices indices :=
        calc S.card ≤ vertices.toFinset.card +
              ((edgeFinset vertices indices).image midOfEdge).card :=
            Finset.card_union_le _ _
          _ ≤ vertices.length + distinct_edge_count vertices indices :=
            Nat.add_le_add vertices.toFinset_card_le Finset.card_image_le
      have hnvlen : nv.length = st'.vertex_map.length := by
        rw [← hnv, hlen]
      omega

/-!  Row-major addressing of the lattice streams. -/

theorem flatMap_drop_const {α β : Type} (f : α → List β) (k : Nat) :
    ∀ (l : List α), (∀ a ∈ l, (f a).length = k) →
      ∀ m : Nat, m ≤ l.length →
        (l.flatMap f).drop (m * k) = (l.drop m).flatMap f := by
  intro l
  induction l with
  | nil =>
      intro _ m hm
      simp only [List.length_nil, Nat.le_zero] at hm
      subst hm
      simp
  | cons a t ih =>
      intro hf m hm
      cases m with
      | zero => simp
      | succ m' =>
          rw [List.flatMap_cons]
          have hfa : (f a).length = k := hf a (List.mem_cons_self _ _)
          rw [show (m' + 1) * k = (f a).length + m' * k from by rw [hfa]; ring,
            List.drop_append, List.drop_succ_cons]
          exact ih (fun x hx => hf x (List.mem_cons_of_mem _ hx)) m'
            (by simpa using hm)

theorem rangeI_drop_cons {n : Int} {m : Nat} (hm : m < n.toNat) :
    (rangeI n).drop m = ((m : Nat) : Int) :: (rangeI n).drop (m + 1) := by
  have hlen : m < (rangeI n).length := by rw [rangeI_length]; exact hm
  have hval : (rangeI n)[m]? = some ((m : Nat) : Int) := by
    simp [rangeI, List.getElem?_range hm]
  rw [List.drop_eq_getElem_cons hlen]
  congr 1
  have h2 := List.getElem?_eq_getElem hlen
  rw [hval] at h2
  exact (Option.some_inj.mp h2).symm

/-- Row-major lattice addressing: the vertex written at `index = y*(size+1)+x`
    is `(x, 0, y)`. -/
theorem latticeVertexStream_get (s : Int) (hs : 1 ≤ s) (x y : Nat)
    (hx : x ≤ s.toNat) (hy : y ≤ s.toNat) :
    (latticeVertexStream s)[y * (s.toNat + 1) + x]? =
      some ⟨((x : Nat) : ℚ), 0, ((y : Nat) : ℚ)⟩ := by
  have hk : ∀ a ∈ rangeI (s + 1),
      ((rangeI (s + 1)).map fun xv =>
        (⟨((xv : Int) : ℚ), 0, ((a : Int) : ℚ)⟩ : Vec3)).length = s.toNat + 1 := by
    intro a _
    rw [List.length_map, rangeI_length]
    omega
  rw [latticeVertexStream, ← List.getElem?_drop,
    flatMap_drop_const _ (s.toNat + 1) _ hk y (by rw [rangeI_length]; omega),
    rangeI_drop_cons (by omega : y < (s + 1).toNat), List.flatMap_cons,
    List.getElem?_append, if_pos (by rw [List.length_map, rangeI_length]; omega)]
  simp only [rangeI, List.getElem?_map,
    List.getElem?_range (show x < (s + 1).toNat by omega)]
  simp

/-- Two triangles per unit cell: the six indices written for cell `(x, y)`. -/
theorem latticeIndexStream_cell (s : Int) (hs : 1 ≤ s) (x y : Nat)
    (hx : x < s.toNat) (hy : y < s.toNat) :
    ((latticeIndexStream s).drop ((y * s.toNat + x) * 6)).take 6 =
      [patch_2d ((x : Nat) : Int) ((y : Nat) : Int) (s + 1),
       patch_2d (((x : Nat) : Int) + 1) (((y : Nat) : Int) + 1) (s + 1),
       patch_2d ((x : Nat) : Int) (((y : Nat) : Int) + 1) (s + 1),
       patch_2d ((x : Nat) : Int) ((y : Nat) : Int) (s + 1),
       patch_2d (((x : Nat) : Int) + 1) ((y : Nat) : Int) (s + 1),
       patch_2d (((x : Nat) : Int) + 1) (((y : Nat) : Int) + 1) (s + 1)] := by
  have hrow : ∀ a ∈ rangeI s, ((rangeI s).flatMap fun xv =>
      [patch_2d xv a (s + 1), patch_2d (xv + 1) (a + 1) (s + 1),
       patch_2d xv (a + 1) (s + 1), patch_2d xv a (s + 1),
       patch_2d (xv + 1) a (s + 1), patch_2d (xv + 1) (a + 1) (s + 1)]).length
        = s.toNat * 6 := by
    intro a _
    rw [length_flatMap_const (k := 6) ?hh, rangeI_length]
    case hh => intro b _; rfl
  have hcell : ∀ a ∈ rangeI s, ([patch_2d a (((y : Nat) : Int)) (s + 1),
       patch_2d (a + 1) (((y : Nat) : Int) + 1) (s + 1),
       patch_2d a (((y : Nat) : Int) + 1) (s + 1),
       patch_2d a (((y : Nat) : Int)) (s + 1),
       patch_2d (a + 1) (((y : Nat) : Int)) (s + 1),
       patch_2d (a + 1) (((y : Nat) : Int) + 1) (s + 1)] : List Int).length = 6 :=
    fun a _ => rfl
  rw [latticeIndexStream,
    show (y * s.toNat + x) * 6 = y * (s.toNat * 6) + x * 6 from by ring,
    ← List.drop_drop,
    flatMap_drop_const _ (s.toNat * 6) _ hrow y (by rw [rangeI_length]; omega),
    rangeI_drop_cons (by omega : y < s.toNat), List.flatMap_cons,
    List.drop_append_of_le_length (by
      rw [length_flatMap_const hcell, rangeI_length]
      have : x + 1 ≤ s.toNat := hx
      calc x * 6 ≤ (s.toNat - 1) * 6 := by omega
        _ ≤ s.toNat * 6 := by omega),
    flatMap_drop_const _ 6 _ hcell x (by rw [rangeI_length]; omega),
    rangeI_drop_cons (by omega : x < s.toNat), List.flatMap_cons,
    List.append_assoc]
  rw [show (6 : Nat) =
    ([patch_2d ((x : Nat) : Int) (((y : Nat) : Int)) (s + 1),
      patch_2d (((x : Nat) : Int) + 1) (((y : Nat) : Int) + 1) (s + 1),
      patch_2d ((x : Nat) : Int) (((y : Nat) : Int) + 1) (s + 1),
      patch_2d ((x : Nat) : Int) (((y : Nat) : Int)) (s + 1),
      patch_2d (((x : Nat) : Int) + 1) (((y : Nat) : Int)) (s + 1),
      patch_2d (((x : Nat) : Int) + 1) (((y : Nat) : Int) + 1) (s + 1)] : List Int).length
    from rfl]
  exact List.take_left ..

/-!  Claim theorems. -/

/-- C1: the claim states that for every positive `tile_resolution`,
    `GeoClipMap::generate` completes as a total function and returns the
    8-handle catalog.  The code refutes it: the Filler block's vertex buffer is
    resized to `patch_vert_resolution` slots while its fill loop performs
    `patch_vert_resolution²` positional writes, so the write at offset
    `patch_vert_resolution` panics and `generate` returns nothing; here
    evaluated at `size = 1, levels = 1` (the helper `generate_none` proves the
    same for every positive size). -/
theorem claim_C1_generate_panics : generate 1 1 = none :=
  generate_none 1 1 (by omega)

/-- C2: one pass of `subdivide_half` replaces each triangle by exactly two,
    split along its longest edge, the edge chosen by evaluating AB, BC, CA in
    that fixed order and taking the first whose (squared) length is at least
    both others; the midpoint of the chosen edge is welded through the weld
    table and the triangle is replaced by `(A, M, C)` and `(M, B, C)` (with the
    cyclic relabelling for a BC or CA win).  Formalised as: the source function
    equals `subdivide_half_spec`, the verbatim spec-side description built on
    `chooseEdge`; the pass is total on well-formed meshes; and each child
    triangle carries half the parent's signed XZ area, hence the same
    orientation. -/
theorem claim_C2_subdivision_rule :
    (∀ vertices indices,
      subdivide_half vertices indices = subdivide_half_spec vertices indices) ∧
    (∀ vertices indices, MeshWF vertices indices →
      ∃ p, subdivide_half vertices indices = some p) ∧
    (∀ a b c : Vec3,
      signedAreaXZ a (midpoint a b) c = signedAreaXZ a b c / 2 ∧
      signedAreaXZ (midpoint a b) b c = signedAreaXZ a b c / 2) := by
  refine ⟨subdivide_half_eq_spec, ?_, signedAreaXZ_split_halves⟩
  intro v i h
  obtain ⟨nv, ni, hsome, _, _⟩ := subdivide_half_total h
  exact ⟨(nv, ni), hsome⟩

theorem claim_C2_witness :
    ∃ p, subdivide_half [⟨0, 0, 0⟩, ⟨2, 0, 0⟩, ⟨0, 0, 2⟩] [0, 1, 2] = some p :=
  claim_C2_subdivision_rule.2.1 _ _ (by decide)

/-- C3: one pass of `subdivide_half` doubles the index count of every
    well-formed triangle list, and consequently the Outer mesh of the Tile and
    Trim blocks has twice the Inner index count; the Filler block's intended
    lattice (its fill loops write the very same `latticeVertexStream` /
    `latticeIndexStream` as the Tile block) satisfies the same doubling law. -/
theorem claim_C3_doubling :
    (∀ vertices indices, MeshWF vertices indices →
      ∃ p, subdivide_half vertices indices = some p ∧
        p.2.length = 2 * indices.length) ∧
    (∀ s : Int, 1 ≤ s →
      (∃ q, tileBlock s = some q ∧
        q.1.indices.length = 2 * q.2.indices.length) ∧
      (∀ aabb, ∃ q, trimBlock s aabb = some q ∧
        q.1.indices.length = 2 * q.2.indices.length) ∧
      (∃ p, subdivide_half (latticeVertexStream s) (latticeIndexStream s) = some p ∧
        p.2.length = 2 * (latticeIndexStream s).length)) := by
  constructor
  · intro v i h
    obtain ⟨nv, ni, hsome, _, hlen⟩ := subdivide_half_total h
    exact ⟨(nv, ni), hsome, hlen⟩
  · intro s hs
    refine ⟨?_, ?_, ?_⟩
    · obtain ⟨q, hsub, hblock, _, hlen⟩ := tileBlock_spec s hs
      exact ⟨_, hblock, by simpa [create_mesh] using hlen⟩
    · intro aabb
      obtain ⟨q, hsub, hblock, _, hlen⟩ := trimBlock_spec s hs aabb
      exact ⟨_, hblock, by simpa [create_mesh] using hlen⟩
    · obtain ⟨nv, ni, hsome, _, hlen⟩ := subdivide_half_total (lattice_wf s hs)
      exact ⟨(nv, ni), hsome, hlen⟩

theorem claim_C3_witness :
    (∃ p, subdivide_half [⟨0, 0, 0⟩, ⟨4, 0, 0⟩, ⟨0, 0, 4⟩] [0, 1, 2] = some p ∧
      p.2.length = 2 * ([0, 1, 2] : List Int).length) ∧
    (∃ q, tileBlock 1 = some q ∧
      q.1.indices.length = 2 * q.2.indices.length) :=
  ⟨claim_C3_doubling.1 _ _ (by decide), (claim_C3_doubling.2 1 (by decide)).1⟩

/-- C4: after one `subdivide_half` pass,
    `vertex_count(after) ≤ vertex_count(before) + distinct_edge_count(before)`:
    the weld table deduplicates by quantized position, so a shared edge
    contributes its midpoint once, never twice. -/
theorem claim_C4_weld_bound : ∀ vertices indices, MeshWF vertices indices →
    ∃ nv ni, subdivide_half vertices indices = some (nv, ni) ∧
      nv.length ≤ vertices.length + distinct_edge_count vertices indices :=
  fun _ _ h => weld_bound h

theorem claim_C4_witness :
    ∃ nv ni, subdivide_half [⟨0, 0, 0⟩, ⟨2, 0, 0⟩, ⟨0, 0, 2⟩] [0, 1, 2] =
        some (nv, ni) ∧
      nv.length ≤ ([⟨0, 0, 0⟩, ⟨2, 0, 0⟩, ⟨0, 0, 2⟩] : List Vec3).length +
        distinct_edge_count [⟨0, 0, 0⟩, ⟨2, 0, 0⟩, ⟨0, 0, 2⟩] [0, 1, 2] :=
  claim_C4_weld_bound _ _ (by decide)

/-- C5: `find_or_add_vertex` returns the index already stored under the
    position's quantized key when one exists (table and buffer unchanged), and
    otherwise appends the vertex, records the key and returns the new index; it
    is a pure function of the table and the position. -/
theorem claim_C5_welder : ∀ (vertex_map : VertexMap) (new_vertices : List Vec3)
    (vertex : Vec3),
    (∀ i, List.lookup (Vector3Hash.from_vector3 vertex) vertex_map = some i →
      find_or_add_vertex vertex_map new_vertices vertex =
        (i, vertex_map, new_vertices)) ∧
    (List.lookup (Vector3Hash.from_vector3 vertex) vertex_map = none →
      find_or_add_vertex vertex_map new_vertices vertex =
        ((new_vertices.length : Int),
         (Vector3Hash.from_vector3 vertex, (new_vertices.length : Int)) :: vertex_map,
         new_vertices ++ [vertex])) :=
  fun _ _ _ => ⟨fun _ h => find_or_add_hit h, fun h => find_or_add_miss h⟩

theorem claim_C5_witness :
    find_or_add_vertex [(Vector3Hash.from_vector3 ⟨1, 2, 3⟩, 5)] [] ⟨1, 2, 3⟩ =
      (5, [(Vector3Hash.from_vector3 ⟨1, 2, 3⟩, 5)], []) ∧
    find_or_add_vertex [] [] ⟨1, 2, 3⟩ =
      ((([] : List Vec3).length : Int),
       (Vector3Hash.from_vector3 ⟨1, 2, 3⟩, (([] : List Vec3).length : Int)) :: [],
       [] ++ [⟨1, 2, 3⟩]) :=
  ⟨(claim_C5_welder _ _ _).1 5 (by simp), (claim_C5_welder [] [] ⟨1, 2, 3⟩).2 rfl⟩

theorem trimVertexStream_one : trimVertexStream 1 =
    [⟨2, 0, 0⟩, ⟨2, 0, 1⟩, ⟨3, 0, 0⟩, ⟨3, 0, 1⟩,
     ⟨1, 0, 2⟩, ⟨0, 0, 2⟩, ⟨1, 0, 3⟩, ⟨0, 0, 3⟩,
     ⟨-1, 0, 1⟩, ⟨-1, 0, 0⟩, ⟨0, 0, 1⟩, ⟨0, 0, 0⟩,
     ⟨0, 0, -1⟩, ⟨1, 0, -1⟩, ⟨0, 0, 0⟩, ⟨1, 0, 0⟩] := by
  norm_num [trimVertexStream, rangeI, show List.range (2 : Int).toNat = [0, 1] from rfl]

/-- C6: the claim states every vertex lies inside the mesh's registered
    bounding box, the Trim/Cross/Seam boxes being accumulated by expanding over
    every emitted vertex.  The code refutes it: Godot's `Aabb::expand` returns
    an enlarged copy and the source discards that return value, so the Trim
    block registers the Filler block's analytic box unchanged, and the Trim
    vertex `(3, 0, 0)` (present at `size = 1`) lies outside that box. -/
theorem claim_C6_containment_fails :
    ∃ q, trimBlock 1 (tileAabb 1) = some q ∧
      q.2.aabb = tileAabb 1 ∧
      (⟨3, 0, 0⟩ : Vec3) ∈ q.2.vertices ∧
      ¬ (tileAabb 1).containsPoint ⟨3, 0, 0⟩ := by
  obtain ⟨q, hsub, hblock, _, _⟩ := trimBlock_spec 1 (by omega) (tileAabb 1)
  refine ⟨_, hblock, rfl, ?_, ?_⟩
  · show (⟨3, 0, 0⟩ : Vec3) ∈ trimVertexStream 1
    rw [trimVertexStream_one]
    simp
  · intro hcont
    have h2 := hcont.2.1
    simp only [tileAabb] at h2
    push_cast at h2
    norm_num at h2

/-- C7: the claim states the signed XZ-projected area of every triangle in
    every mesh has the same sign.  The code refutes it inside the Trim mesh
    itself: at `size = 1` triangle 0 (arm 0) has signed area `+1` while
    triangle 4 (arm 2, the third vertex loop writes its vertex pairs in the
    opposite order) has signed area `-1`. -/
theorem claim_C7_winding_mixed :
    ∃ q, trimBlock 1 (tileAabb 1) = some q ∧
      q.2.indices.take 3 = [1, 0, 3] ∧
      (q.2.indices.drop 12).take 3 = [9, 8, 11] ∧
      signedAreaXZ (resolveV q.2.vertices 1) (resolveV q.2.vertices 0)
        (resolveV q.2.vertices 3) = 1 ∧
      signedAreaXZ (resolveV q.2.vertices 9) (resolveV q.2.vertices 8)
        (resolveV q.2.vertices 11) = -1 := by
  obtain ⟨q, hsub, hblock, _, _⟩ := trimBlock_spec 1 (by omega) (tileAabb 1)
  refine ⟨(create_mesh q.1 q.2 (tileAabb 1),
    create_mesh (trimVertexStream 1) (trimIndexStream 1) (tileAabb 1)),
    hblock, ?_, ?_, ?_, ?_⟩
  · show (trimIndexStream 1).take 3 = [1, 0, 3]
    decide
  · show ((trimIndexStream 1).drop 12).take 3 = [9, 8, 11]
    decide
  · show signedAreaXZ (resolveV (trimVertexStream 1) 1)
      (resolveV (trimVertexStream 1) 0) (resolveV (trimVertexStream 1) 3) = 1
    rw [trimVertexStream_one]
    norm_num [resolveV, getVertex, signedAreaXZ,
      show ((0 : Int)).toNat = 0 from rfl, show ((1 : Int)).toNat = 1 from rfl,
      show ((3 : Int)).toNat = 3 from rfl]
  · show signedAreaXZ (resolveV (trimVertexStream 1) 9)
      (resolveV (trimVertexStream 1) 8) (resolveV (trimVertexStream 1) 11) = -1
    rw [trimVertexStream_one]
    norm_num [resolveV, getVertex, signedAreaXZ,
      show ((8 : Int)).toNat = 8 from rfl, show ((9 : Int)).toNat = 9 from rfl,
      show ((11 : Int)).toNat = 11 from rfl]

/-- C8 counterexample: the claim states the Seam mesh is triangulated as a
    closed fan of `4*(4*size+2)` triangles (as many as its perimeter
    vertices); at `size = 1` the mesh has `4*(4*1+2) = 24` vertices but only
    36 indices, i.e. 12 triangles, not 24. -/
theorem claim_C8_counterexample :
    ∃ m, seamBlock 1 (tileAabb 1) = some m ∧
      m.vertices.length = 4 * (4 * 1 + 2) ∧
      m.indices.length = 36 ∧
      ¬ m.indices.length = 3 * (4 * (4 * 1 + 2)) := by
  obtain ⟨m, hm, _, hv, hi, _, _⟩ := seamBlock_spec 1 (by omega) (tileAabb 1)
  refine ⟨m, hm, ?_, ?_, ?_⟩
  · rw [hv]
    decide
  · rw [hi]
    decide
  · rw [hi]
    decide

/-- C8 (amended): the Seam mesh is a one-vertex-wide ring of `4*(4*size+2)`
    perimeter vertices triangulated as a closed fan of `2*(4*size+2)` triangles
    (half as many triangles as perimeter vertices), and the final entry of its
    index buffer is wrapped back to vertex 0. -/
theorem claim_C8_seam_ring : ∀ (s : Int) (aabb : Aabb), 1 ≤ s →
    ∃ m, seamBlock s aabb = some m ∧
      m.vertices.length = (4 * (4 * s + 2)).toNat ∧
      m.indices.length = 3 * (2 * (4 * s + 2)).toNat ∧
      m.indices.getLast? = some 0 := by
  intro s aabb hs
  obtain ⟨m, hm, _, hv, hi, hlast, _⟩ := seamBlock_spec s hs aabb
  refine ⟨m, hm, ?_, ?_, hlast⟩
  · rw [hv]
    congr 1
    ring
  · rw [hi]
    have e1 : ((s * 4 + 2) * 6).toNat = (s * 4 + 2).toNat * 6 :=
      toNat_mul_of_nonneg (by omega) (by omega)
    have e2 : (2 * (4 * s + 2)).toNat = 2 * (4 * s + 2).toNat := by
      rw [toNat_mul_of_nonneg (by omega) (by omega)]
      rfl
    have e3 : (s * 4 + 2).toNat = (4 * s + 2).toNat := by omega
    omega

theorem claim_C8_witness :
    ∃ m, seamBlock 1 (tileAabb 1) = some m ∧
      m.vertices.length = (4 * (4 * (1 : Int) + 2)).toNat ∧
      m.indices.length = 3 * (2 * (4 * (1 : Int) + 2)).toNat ∧
      m.indices.getLast? = some 0 :=
  claim_C8_seam_ring 1 (tileAabb 1) (by decide)

/-- C9: in every generated mesh every index addresses a vertex
    (`index < vertex_count`) and the index count is a multiple of 3 — for the
    Tile block's Inner and Outer meshes, the Trim block's Inner and Outer
    meshes, the Cross mesh and the Seam mesh (the Filler block never produces
    meshes, see C1; its index stream is the Tile lattice stream covered here). -/
theorem claim_C9_index_validity : ∀ (s : Int) (aabb : Aabb), 1 ≤ s →
    (∃ q, tileBlock s = some q ∧ MeshWF q.1.vertices q.1.indices ∧
      MeshWF q.2.vertices q.2.indices) ∧
    (∃ q, trimBlock s aabb = some q ∧ MeshWF q.1.vertices q.1.indices ∧
      MeshWF q.2.vertices q.2.indices) ∧
    (∃ m, crossBlock s aabb = some m ∧ MeshWF m.vertices m.indices) ∧
    (∃ m, seamBlock s aabb = some m ∧ MeshWF m.vertices m.indices) := by
  intro s aabb hs
  refine ⟨?_, ?_, ?_, ?_⟩
  · obtain ⟨q, hsub, hblock, hwf, _⟩ := tileBlock_spec s hs
    exact ⟨_, hblock, by simpa [create_mesh] using hwf,
      by simpa [create_mesh] using lattice_wf s hs⟩
  · obtain ⟨q, hsub, hblock, hwf, _⟩ := trimBlock_spec s hs aabb
    exact ⟨_, hblock, by simpa [create_mesh] using hwf,
      by simpa [create_mesh] using trim_wf s hs⟩
  · exact ⟨_, crossBlock_spec s hs aabb,
      by simpa [create_mesh] using cross_wf s hs⟩
  · obtain ⟨m, hm, _, _, _, _, hwf⟩ := seamBlock_spec s hs aabb
    exact ⟨m, hm, hwf⟩

theorem claim_C9_witness :
    (∃ q, tileBlock 1 = some q ∧ MeshWF q.1.vertices q.1.indices ∧
      MeshWF q.2.vertices q.2.indices) ∧
    (∃ q, trimBlock 1 (tileAabb 1) = some q ∧ MeshWF q.1.vertices q.1.indices ∧
      MeshWF q.2.vertices q.2.indices) ∧
    (∃ m, crossBlock 1 (tileAabb 1) = some m ∧ MeshWF m.vertices m.indices) ∧
    (∃ m, seamBlock 1 (tileAabb 1) = some m ∧ MeshWF m.vertices m.indices) :=
  claim_C9_index_validity 1 (tileAabb 1) (by decide)

/-- C10: the base patch lattice (the Inner shape whose fill loops both the Tile
    and the Filler blocks run) is a `(size+1) × (size+1)` grid of vertices at
    integer lattice coordinates in the XZ plane addressed row-major by
    `index = y*(size+1)+x`, triangulated by `patch_2d` into two triangles per
    unit cell, with `(size+1)²` vertices and `6*size²` indices; at
    `tile_resolution = 2` the TileInner mesh has 9 vertices and 24 indices. -/
theorem claim_C10_lattice : ∀ s : Int, 1 ≤ s →
    (latticeVertexStream s).length = (s.toNat + 1) * (s.toNat + 1) ∧
    (∀ x y : Nat, x ≤ s.toNat → y ≤ s.toNat →
      (latticeVertexStream s)[y * (s.toNat + 1) + x]? =
        some ⟨(x : ℚ), 0, (y : ℚ)⟩) ∧
    (latticeIndexStream s).length = 6 * (s.toNat * s.toNat) ∧
    (∀ x y : Nat, x < s.toNat → y < s.toNat →
      ((latticeIndexStream s).drop ((y * s.toNat + x) * 6)).take 6 =
        [patch_2d ((x : Nat) : Int) ((y : Nat) : Int) (s + 1),
         patch_2d (((x : Nat) : Int) + 1) (((y : Nat) : Int) + 1) (s + 1),
         patch_2d ((x : Nat) : Int) (((y : Nat) : Int) + 1) (s + 1),
         patch_2d ((x : Nat) : Int) ((y : Nat) : Int) (s + 1),
         patch_2d (((x : Nat) : Int) + 1) ((y : Nat) : Int) (s + 1),
         patch_2d (((x : Nat) : Int) + 1) (((y : Nat) : Int) + 1) (s + 1)]) ∧
    (∃ q, tileBlock 2 = some q ∧ q.2.vertices.length = 9 ∧
      q.2.indices.length = 24) := by
  intro s hs
  refine ⟨?_, ?_, ?_, ?_, ?_⟩
  · rw [latticeVertexStream_length]
    have ht : (s + 1).toNat = s.toNat + 1 := by omega
    rw [ht]
  · intro x y hx hy
    exact latticeVertexStream_get s hs x y hx hy
  · rw [latticeIndexStream_length]
    ring
  · intro x y hx hy
    exact latticeIndexStream_cell s hs x y hx hy
  · obtain ⟨q, hsub, hblock, _, _⟩ := tileBlock_spec 2 (by omega)
    refine ⟨_, hblock, ?_, ?_⟩
    · show (latticeVertexStream 2).length = 9
      rw [latticeVertexStream_length]
      rfl
    · show (latticeIndexStream 2).length = 24
      rw [latticeIndexStream_length]
      rfl

theorem claim_C10_witness :
    (latticeVertexStream 2).length = ((2 : Int).toNat + 1) * ((2 : Int).toNat + 1) ∧
    (latticeVertexStream 2)[1 * ((2 : Int).toNat + 1) + 2]? =
      some ⟨((2 : Nat) : ℚ), 0, ((1 : Nat) : ℚ)⟩ ∧
    (latticeIndexStream 2).length = 6 * ((2 : Int).toNat * (2 : Int).toNat) ∧
    ((latticeIndexStream 2).drop ((1 * (2 : Int).toNat + 0) * 6)).take 6 =
      [patch_2d (((0 : Nat)) : Int) (((1 : Nat)) : Int) ((2 : Int) + 1),
       patch_2d ((((0 : Nat)) : Int) + 1) ((((1 : Nat)) : Int) + 1) ((2 : Int) + 1),
       patch_2d (((0 : Nat)) : Int) ((((1 : Nat)) : Int) + 1) ((2 : Int) + 1),
       patch_2d (((0 : Nat)) : Int) (((1 : Nat)) : Int) ((2 : Int) + 1),
       patch_2d ((((0 : Nat)) : Int) + 1) (((1 : Nat)) : Int) ((2 : Int) + 1),
       patch_2d ((((0 : Nat)) : Int) + 1) ((((1 : Nat)) : Int) + 1) ((2 : Int) + 1)] ∧
    (∃ q, tileBlock 2 = some q ∧ q.2.vertices.length = 9 ∧
      q.2.indices.length = 24) :=
  ⟨(claim_C10_lattice 2 (by decide)).1,
   (claim_C10_lattice 2 (by decide)).2.1 2 1 (by decide) (by decide),
   (claim_C10_lattice 2 (by decide)).2.2.1,
   (claim_C10_lattice 2 (by decide)).2.2.2.1 0 1 (by decide) (by decide),
   (claim_C10_lattice 2 (by decide)).2.2.2.2⟩

end FastTerrain
